import Mathlib

/-!
Verification of `LatestVersions` (package `main`, `src/main.go`).

`LatestVersions` sorts a slice of semantic versions, scans it once while
tracking the current `major.minor` line, collects the last version seen of
every line at or above a floor, and returns them sorted in descending order.

The development has four layers.

* The imported package `github.com/coreos/go-semver/semver` (type `Version`,
  `Compare`, `LessThan`) is not part of `src/`; it is modelled here.
* The standard library call `sort.Sort` is not a stable sort and its algorithm
  depends on the toolchain, so it is modelled by its contract (`SortAlg`): every
  theorem about `LatestVersions` holds for every sorting procedure that meets
  the contract, and `insertionSortAlg` is an executable instance.
* `LatestVersions` itself is embedded statement by statement: the loop body is
  `scanStep`, the loop is a left fold, and the in-place sort of the caller's
  slice is made explicit in `LatestVersionsRun`.
* The function `main` is embedded on the content of the input file: the lines
  the scanner delivers are `scannerLines`, the loading loop is `loadStep` and
  `loadQueries`, the loop over the tags of the fetched
  releases is `parseReleases`, the loop over the repositories is `mainLoop`.
  The parser `semver.NewVersion` and the remote service are arguments of these
  definitions, so the theorems hold for every parser and every service;
  `NewVersion` is an executable parser. A Go panic is an `Except.error`.

Machine integers: `Major`, `Minor`, `Patch` are `int64` in Go. The code only
compares them, never does arithmetic, so they are embedded as `Int`; every
`int64` value is an `Int`, hence the theorems cover all machine values.
Slice elements are non-nil pointers `*semver.Version`; they are embedded as
values.
-/

namespace GoMain

/-! ## The semver package -/

/-- Modelled from the spec: the type `semver.Version` of the imported package
go-semver is missing from `src/`. A semantic version has three numeric
components plus optional pre-release and build metadata. -/
structure Version where
  Major : Int
  Minor : Int
  Patch : Int
  PreRelease : String
  Metadata : String
  deriving DecidableEq, Repr

/-- Three-way comparison of two strings by their characters, as Go compares
strings with `<` and `>`: `-1`, `0` or `1`. -/
def strCompare : List Char → List Char → Int
  | [], [] => 0
  | [], _ :: _ => -1
  | _ :: _, [] => 1
  | a :: as, b :: bs =>
    if a.toNat > b.toNat then 1
    else if a.toNat < b.toNat then -1
    else strCompare as bs

/-- Value of a string of decimal digits, `none` when a character is not a digit. -/
def digitsVal : List Char → Nat → Option Nat
  | [], acc => some acc
  | c :: cs, acc =>
    if c.isDigit then digitsVal cs (acc * 10 + (c.toNat - 48)) else none

/-- The Go standard library function `strconv.Atoi`, used by go-semver to tell
numeric identifiers: an optional sign followed by at least one decimal digit,
the value in the range of a 64-bit `int`. -/
def atoi (s : List Char) : Option Int :=
  let body : List Char × Bool :=
    match s with
    | '-' :: ds => (ds, true)
    | '+' :: ds => (ds, false)
    | ds => (ds, false)
  if body.1.isEmpty then none
  else
    match digitsVal body.1 0 with
    | none => none
    | some n =>
      let v : Int := if body.2 then -(n : Int) else (n : Int)
      if -(2 : Int) ^ 63 ≤ v ∧ v < (2 : Int) ^ 63 then some v else none

/-- The Go standard library call `strings.Split(s, ".")`, used by go-semver to
cut a pre-release into identifiers: the dot-separated fields of a string; the
empty string has the single field `""`. -/
def splitDots : List Char → List (List Char)
  | [] => [[]]
  | c :: cs =>
    if c = '.' then [] :: splitDots cs
    else
      match splitDots cs with
      | [] => [[c]]
      | f :: fs => (c :: f) :: fs

/-- Modelled from the spec: `recursivePreReleaseCompare` of go-semver is missing
from `src/`. Pre-release identifiers are compared field by field: a numeric
identifier is below an alphanumeric one, two numeric ones compare by value, then
by text; a list that is a proper prefix of the other is below it. -/
def recursivePreReleaseCompare : List (List Char) → List (List Char) → Int
  | [], [] => 0
  | [], _ :: _ => -1
  | _ :: _, [] => 1
  | a :: versionA, b :: versionB =>
    match atoi a, atoi b with
    | some _, none => -1
    | none, some _ => 1
    | some aI, some bI =>
      if aI > bI then 1
      else if aI < bI then -1
      else if strCompare a b > 0 then 1
      else if strCompare a b < 0 then -1
      else recursivePreReleaseCompare versionA versionB
    | none, none =>
      if strCompare a b > 0 then 1
      else if strCompare a b < 0 then -1
      else recursivePreReleaseCompare versionA versionB

/-- Modelled from the spec: `preReleaseCompare` of go-semver is missing from
`src/`. Pre-release versions sort below their corresponding release: of two
versions with equal numbers the one without a pre-release is the greater. -/
def preReleaseCompare (a b : String) : Int :=
  if a.data.length = 0 ∧ b.data.length > 0 then 1
  else if b.data.length = 0 ∧ a.data.length > 0 then -1
  else recursivePreReleaseCompare (splitDots a.data) (splitDots b.data)

/-- Modelled from the spec: `recursiveCompare` of go-semver is missing from
`src/`. Numeric comparison of the components in order. -/
def recursiveCompare : List Int → List Int → Int
  | a :: versionA, b :: versionB =>
    if a > b then 1
    else if a < b then -1
    else recursiveCompare versionA versionB
  | _, _ => 0

/-- The comparable numeric parts of a version, `Version.Slice` of go-semver. -/
def Version.Slice (v : Version) : List Int := [v.Major, v.Minor, v.Patch]

/-- Modelled from the spec: `Version.Compare` of go-semver is missing from
`src/`. Numeric comparison of major, then minor, then patch, then the
pre-release; build metadata is ignored. The result is `-1`, `0` or `1`. -/
def Version.Compare (v versionB : Version) : Int :=
  if recursiveCompare v.Slice versionB.Slice ≠ 0 then
    recursiveCompare v.Slice versionB.Slice
  else preReleaseCompare v.PreRelease versionB.PreRelease

/-- Modelled from the spec: `Version.LessThan` of go-semver is missing from
`src/`: `v.Compare(versionB) < 0`. -/
def Version.LessThan (v versionB : Version) : Bool :=
  decide (v.Compare versionB < 0)

/-- Modelled from the spec: `Version.Equal` of go-semver is missing from `src/`:
`v.Compare(versionB) == 0`, equality of semantic versions (build metadata is
not compared). -/
def Version.Equal (v versionB : Version) : Bool :=
  decide (v.Compare versionB = 0)

/-- Method `Less` of `semver.Versions`: `s[i].LessThan(*s[j])`. -/
def versionsLess (a b : Version) : Bool := a.LessThan b

/-- Method `Less` of `sort.Reverse(semver.Versions(..))`: the arguments are
swapped. -/
def reverseLess (a b : Version) : Bool := versionsLess b a

/-! ## The sort package -/

/-- What `sort.Sort` asks of `Less`: a transitive ordering whose negation is
transitive as well, and that never holds between an element and itself. -/
structure LessContract (less : Version → Version → Bool) : Prop where
  irrefl : ∀ a, less a a = false
  trans : ∀ a b c, less a b = true → less b c = true → less a c = true
  negTrans : ∀ a b c, less a b = false → less b c = false → less a c = false

/-- Modelled from the spec: `sort.Sort` of the Go standard library is missing
from `src/`. It reorders the slice by swaps only, so the outcome is a
permutation of the input, and when `Less` meets its contract no later element
is less than an earlier one. The sort is not stable: nothing is promised about
the relative order of elements that compare equal. -/
structure SortAlg where
  sort : (Version → Version → Bool) → List Version → List Version
  perm : ∀ less l, (sort less l).Perm l
  sorted : ∀ less l, LessContract less →
    (sort less l).Pairwise (fun a b => less b a = false)

/-! ## `LatestVersions` -/

/-- The local variables of the loop of `LatestVersions`: the tracked line
`major`, `minor`, the previously accepted release `prev` (`none` is Go's `nil`)
and the slice `versionSlice` under construction. -/
structure ScanState where
  major : Int
  minor : Int
  prev : Option Version
  versionSlice : List Version
  deriving DecidableEq, Repr

/-- State before the loop: `var major, minor int64`, `var prev *semver.Version`
and `var versionSlice []*semver.Version` hold their zero values. -/
def scanInit : ScanState :=
  { major := 0, minor := 0, prev := none, versionSlice := [] }

/-- One iteration of the loop body of `LatestVersions` (lines 25-42). -/
def scanStep (minVersion : Version) (s : ScanState) (release : Version) : ScanState :=
  if !release.LessThan minVersion then
    -- if prev == nil { major, minor = release.Major, release.Minor; prev = release }
    let s1 : ScanState :=
      if s.prev.isNone then
        { s with major := release.Major, minor := release.Minor, prev := some release }
      else s
    -- if major < release.Major || minor < release.Minor { ...; append(versionSlice, prev) }
    let s2 : ScanState :=
      if decide (s1.major < release.Major) || decide (s1.minor < release.Minor) then
        { s1 with major := release.Major, minor := release.Minor,
                  versionSlice := s1.versionSlice ++ s1.prev.toList }
      else s1
    -- prev = release
    { s2 with prev := some release }
  else s

/-- The loop `for _, release := range releases` of `LatestVersions`. -/
def scan (minVersion : Version) (releases : List Version) (s : ScanState) : ScanState :=
  releases.foldl (scanStep minVersion) s

/-- What a call of `LatestVersions` leaves behind: the contents of the caller's
slice `releases` (it is sorted in place), the floor the pointer `minVersion`
points to, and the returned slice. -/
structure Outcome where
  releases : List Version
  minVersion : Version
  result : List Version
  deriving DecidableEq, Repr

/-- The function `LatestVersions` of `src/main.go` with its effect on the
caller's slice made explicit. -/
def LatestVersionsRun (S : SortAlg) (releases : List Version) (minVersion : Version) :
    Outcome :=
  -- sort.Sort(semver.Versions(releases))
  let releases1 := S.sort versionsLess releases
  -- the loop
  let s := scan minVersion releases1 scanInit
  -- if prev != nil { versionSlice = append(versionSlice, prev) }
  let versionSlice := s.versionSlice ++ s.prev.toList
  -- sort.Sort(sort.Reverse(semver.Versions(versionSlice)))
  { releases := releases1, minVersion := minVersion,
    result := S.sort reverseLess versionSlice }

/-- The value returned by `LatestVersions(releases, minVersion)`. -/
def LatestVersions (S : SortAlg) (releases : List Version) (minVersion : Version) :
    List Version :=
  (LatestVersionsRun S releases minVersion).result

/-! ## Orders derived from `Compare` -/

/-- The version line of a version: its `(major, minor)` pair. -/
def Version.line (v : Version) : Int × Int := (v.Major, v.Minor)

/-- Semantic-version order `a ≤ b`: `b` is not less than `a`. -/
def Version.le (a b : Version) : Prop := b.LessThan a = false

/-- Strict order of version lines: `(major, minor)` compared lexicographically. -/
def lineLt (a b : Version) : Prop :=
  a.Major < b.Major ∨ (a.Major = b.Major ∧ a.Minor < b.Minor)

/-- Builds a release version `major.minor.patch` without pre-release or metadata. -/
def mkVersion (major minor patch : Int) : Version :=
  { Major := major, Minor := minor, Patch := patch, PreRelease := "", Metadata := "" }

/-! ## An executable sorting procedure -/

/-- Insertion sort, an executable instance of `SortAlg`: it keeps the input order
of versions that compare equal. -/
def insertionSortAlg : SortAlg where
  sort less l := l.insertionSort (fun a b => less b a = false)
  perm less l := List.perm_insertionSort _ l
  sorted less l h := by
    haveI : IsTotal Version (fun a b => less b a = false) := ⟨fun a b => by
      cases hab : less a b
      · exact Or.inr rfl
      · cases hba : less b a
        · exact Or.inl rfl
        · have := h.trans a b a hab hba
          rw [h.irrefl a] at this
          exact absurd this (by decide)⟩
    haveI : IsTrans Version (fun a b => less b a = false) :=
      ⟨fun a b c hab hbc => h.negTrans c b a hbc hab⟩
    exact List.sorted_insertionSort _ l

/-! ## Auxiliary definitions of the proofs -/

/-- A three-way comparison is a total preorder: swapping the arguments negates
the result, and `≤` is transitive. -/
structure CmpLaws {α : Type} (c : α → α → Int) : Prop where
  antisymm : ∀ a b, c a b = - c b a
  trans : ∀ a b d, c a b ≤ 0 → c b d ≤ 0 → c a d ≤ 0

/-- Lexicographic combination of two three-way comparisons. -/
def lexCmp {α : Type} (c1 c2 : α → α → Int) (a b : α) : Int :=
  if c1 a b ≠ 0 then c1 a b else c2 a b

/-- Three-way comparison of two versions on one numeric component. -/
def cmpOn (f : Version → Int) (v w : Version) : Int :=
  if f v > f w then 1 else if f v < f w then -1 else 0

/-- The versions the loop looks at: those not less than the floor. -/
def qualifying (minVersion : Version) (releases : List Version) : List Version :=
  releases.filter (fun release => !release.LessThan minVersion)

/-- The last version of every maximal run of versions of one line. -/
def lineLasts : List Version → List Version
  | [] => []
  | [a] => [a]
  | a :: b :: t => if a.line = b.line then lineLasts (b :: t) else a :: lineLasts (b :: t)

/-- What the function holds after `if prev != nil { append }`: the collected
slice before the final sort. -/
def collected (s : ScanState) : List Version := s.versionSlice ++ s.prev.toList

/-- The slice collected by the loop of `LatestVersions`, before the final sort. -/
def collectedOf (S : SortAlg) (releases : List Version) (minVersion : Version) :
    List Version :=
  lineLasts (qualifying minVersion (S.sort versionsLess releases))

/-- No two different versions of the list compare equal (versions that differ in
build metadata only do). Decided by evaluation on the inputs of the scenarios. -/
def noTies (l : List Version) : Bool :=
  l.all (fun a => l.all (fun b => !a.Equal b || decide (a = b)))

/-- The test of line 35 of `LatestVersions`, `major < release.Major || minor <
release.Minor`, in a state of the loop. -/
def transitionTest (s : ScanState) (release : Version) : Bool :=
  decide (s.major < release.Major) || decide (s.minor < release.Minor)

/-! ## The reference definition of the design note -/

/-- The greater of two versions; of two versions that compare equal, the second
(the one met later). -/
def maxVersion (a b : Version) : Version := if b.LessThan a then a else b

/-- The greater of two versions; of two versions that compare equal, the first
(the one already stored). -/
def maxVersionStrict (a b : Version) : Version := if a.LessThan b then b else a

/-- One step of the fold of the design note: the mapping from (major, minor) to
a version, kept as an association list in the order the lines were first met,
takes the version `v`: a new line gets `v`, a known line the greater (`pick`) of
the stored version and `v`. -/
def upsertWith (pick : Version → Version → Version) :
    List ((Int × Int) × Version) → Version → List ((Int × Int) × Version)
  | [], v => [(v.line, v)]
  | (k, old) :: m, v =>
    if k = v.line then (k, pick old v) :: m else (k, old) :: upsertWith pick m v

/-- The reimplementation the design note of the spec describes: an explicit fold
over the sorted sequence of the versions at or above the floor, producing a
mapping from (major, minor) to the maximum version, then projecting the values
and sorting them in descending order. -/
def referenceWith (pick : Version → Version → Version) (S : SortAlg)
    (releases : List Version) (floor : Version) : List Version :=
  S.sort reverseLess
    ((((S.sort versionsLess releases).filter (fun v => !v.LessThan floor)).foldl
      (upsertWith pick) []).map Prod.snd)

/-- The reference definition with the maximum `maxVersion`. -/
def referenceLatestVersions (S : SortAlg) (releases : List Version) (floor : Version) :
    List Version :=
  referenceWith maxVersion S releases floor

/-- A key of the mapping is on an earlier line than a version. -/
def keyLt (k : Int × Int) (v : Version) : Prop :=
  k.1 < v.Major ∨ (k.1 = v.Major ∧ k.2 < v.Minor)

/-! ## The function `main`: parsing versions -/

/-- The Go standard library call `strings.Split(s, sep)` for a separator of one
character: the fields of `s` between the separators; a string without separator
is its own single field. -/
def splitChars (sep : Char) : List Char → List (List Char)
  | [] => [[]]
  | c :: cs =>
    if c = sep then [] :: splitChars sep cs
    else
      match splitChars sep cs with
      | [] => [[c]]
      | f :: fs => (c :: f) :: fs

/-- The call `strings.Split(s, sep)` on strings. -/
def stringsSplit (s : String) (sep : Char) : List String :=
  (splitChars sep s.data).map String.mk

/-- The helper `splitOff` of go-semver: cuts the input at the first delimiter into
what stays and the value split off; without delimiter nothing is split off. -/
def splitOff (input : List Char) (delim : Char) : List Char × List Char :=
  match splitChars delim input with
  | first :: second :: rest => (first, List.intercalate [delim] (second :: rest))
  | _ => (input, [])

/-- The check `validateIdentifier` of go-semver: the empty string, or
dot-separated non-empty fields of letters, digits and hyphens. -/
def validateIdentifier (id : List Char) : Bool :=
  id.isEmpty ||
    (splitDots id).all (fun field =>
      !field.isEmpty && field.all (fun c => c.isAlphanum || c = '-'))

/-- Modelled from the spec: `semver.NewVersion` of go-semver is missing from
`src/`. It parses standard semantic-version text `major.minor.patch`, optionally
followed by `-pre-release` and `+metadata`; `none` stands for the error result. -/
def NewVersion (version : String) : Option Version :=
  let (version1, metadata) := splitOff version.data '+'
  let (version2, preRelease) := splitOff version1 '-'
  match splitOff version2 '.' with
  | (major, rest) =>
    match splitOff rest '.' with
    | (minor, patch) =>
      if (splitChars '.' version2).length < 3 then none
      else if !validateIdentifier preRelease then none
      else if !validateIdentifier metadata then none
      else
        match atoi major, atoi minor, atoi patch with
        | some ma, some mi, some pa =>
          some (Version.mk ma mi pa (String.mk preRelease) (String.mk metadata))
        | _, _, _ => none

/-- A run-time panic of the Go program. -/
inductive Panic where
  | indexOutOfRange
  | parseError
  deriving DecidableEq, Repr

/-- Equality of two outcomes of code that may panic is decidable. -/
instance exceptPanicDecEq {α : Type} [DecidableEq α] : DecidableEq (Except Panic α)
  | Except.ok a, Except.ok b =>
    if h : a = b then isTrue (by rw [h]) else isFalse (fun e => h (by cases e; rfl))
  | Except.error a, Except.error b =>
    if h : a = b then isTrue (by rw [h]) else isFalse (fun e => h (by cases e; rfl))
  | Except.ok _, Except.error _ => isFalse (fun e => by cases e)
  | Except.error _, Except.ok _ => isFalse (fun e => by cases e)

/-- Lines 130-133 of `main`: `versionString := *release.TagName` and the removal
of a leading `v`. Indexing the empty string panics. The pointer `TagName` is
taken to be non-nil: the tag name is a string. -/
def normalizeTag (tagName : String) : Except Panic String :=
  match tagName.data with
  | [] => Except.error Panic.indexOutOfRange
  | c :: cs => if c = 'v' then Except.ok (String.mk cs) else Except.ok tagName

/-- The call `semver.New(versionString)` of go-semver, `Must(NewVersion(..))`: it
panics when the text does not parse. The parser is the argument `newVersion`. -/
def semverNew (newVersion : String → Option Version) (versionString : String) :
    Except Panic Version :=
  match newVersion versionString with
  | some v => Except.ok v
  | none => Except.error Panic.parseError

/-- Lines 126-135 of `main`: the loop that fills `allReleases` from the tag names
of the fetched releases, in order; it stops at the first panic. -/
def parseReleases (newVersion : String → Option Version) :
    List String → Except Panic (List Version)
  | [] => Except.ok []
  | tagName :: rest =>
    match normalizeTag tagName with
    | Except.error e => Except.error e
    | Except.ok versionString =>
      match semverNew newVersion versionString with
      | Except.error e => Except.error e
      | Except.ok v =>
        match parseReleases newVersion rest with
        | Except.error e => Except.error e
        | Except.ok vs => Except.ok (v :: vs)

/-! ## The function `main`: loading the input file -/

/-- The three storage slices of `main` (lines 76-78). -/
structure RepoStorage where
  repo_Owners : List String
  repo_Names : List String
  repo_mVersions : List Version
  deriving DecidableEq, Repr

/-- The storage before the first line is read: three nil slices. -/
def emptyStorage : RepoStorage :=
  RepoStorage.mk [] [] []

/-- One iteration of the loop `for scanner.Scan()` of `main` (lines 82-109) on the
line `scanner.Text()`; `continue` leaves the storage as it is. The local variable
`name` holds the first part of the repository field and `owner` the second, and
`name` is appended to `repo_Owners`, `owner` to `repo_Names`, as in the source. -/
def loadStep (newVersion : String → Option Version) (st : RepoStorage) (line : String) :
    RepoStorage :=
  let lineParts := stringsSplit line ','
  if lineParts.length ≠ 2 then st
  else
    let repoParts := stringsSplit (lineParts.getD 0 "") '/'
    if repoParts.length ≠ 2 then st
    else
      let name := repoParts.getD 0 ""
      let owner := repoParts.getD 1 ""
      match newVersion (lineParts.getD 1 "") with
      | none => st
      | some version =>
        RepoStorage.mk (st.repo_Owners ++ [name]) (st.repo_Names ++ [owner])
          (st.repo_mVersions ++ [version])

/-- The constant `bufio.MaxScanTokenSize`, the size limit of a token of a
`bufio.Scanner` with its default buffer: 64 KiB. -/
def maxScanTokenSize : Nat := 64 * 1024

/-- The number of bytes of a text, as Go's `len` counts them in UTF-8. -/
def utf8Len : List Char → Nat
  | [] => 0
  | c :: cs => c.utf8Size + utf8Len cs

/-- The pieces of a text between its newlines, without the piece after the last
newline when that piece is empty: the split function `bufio.ScanLines` yields no
token for empty data at the end of the file. -/
def dropFinalEmpty : List (List Char) → List (List Char)
  | [] => []
  | [piece] => if piece.isEmpty then [] else [piece]
  | piece :: next :: rest => piece :: dropFinalEmpty (next :: rest)

/-- The lines of a text as `bufio.ScanLines` cuts them at the newlines, each
without its newline. -/
def rawLines (text : List Char) : List (List Char) :=
  dropFinalEmpty (splitChars '\n' text)

/-- The helper `dropCR` of `bufio`: a line without its final carriage return. -/
def dropCR (data : List Char) : List Char :=
  if data.getLast? = some '\r' then data.dropLast else data

/-- The values of `scanner.Text()` over the iterations of `for scanner.Scan()`
(lines 81-83) for `scanner := bufio.NewScanner(file)` on a file with the content
`text`: the lines of the text in order, each without its line ending. The scanner
has its default buffer, so `Scan` returns false at the first line of
`maxScanTokenSize` bytes or more (`main` never reads `scanner.Err()`): the loop
sees neither that line nor any line after it. -/
def scannerLines (text : String) : List String :=
  ((rawLines text.data).takeWhile (fun l => decide (utf8Len l < maxScanTokenSize))).map
    (fun l => String.mk (dropCR l))

/-- The loading loop of `main` (lines 81-109) on a file with the content `text`:
one iteration for every line the scanner delivers. -/
def loadQueries (newVersion : String → Option Version) (text : String) : RepoStorage :=
  (scannerLines text).foldl (loadStep newVersion) emptyStorage

/-- What the program does that is visible from outside: a call of the remote
service `client.Repositories.ListReleases(ctx, owner, repo, opt)` and a text
written to standard output. -/
inductive Event where
  | listReleases (owner repo : String)
  | stdout (text : String)
  deriving DecidableEq, Repr

/-- The method `String` of `semver.Version`: `major.minor.patch`, then the
pre-release after `-` and the metadata after `+` when they are not empty. -/
def versionString (v : Version) : String :=
  toString v.Major ++ "." ++ toString v.Minor ++ "." ++ toString v.Patch ++
    (if v.PreRelease = "" then "" else "-" ++ v.PreRelease) ++
    (if v.Metadata = "" then "" else "+" ++ v.Metadata)

/-- The verb `%s` of `fmt.Printf` on a slice of versions: the versions in
brackets, separated by blanks. -/
def formatVersions (versionSlice : List Version) : String :=
  "[" ++ " ".intercalate (versionSlice.map versionString) ++ "]"

/-- The events of a run and the panic that ended it, if one did. -/
structure RunResult where
  events : List Event
  panic : Option Panic
  deriving DecidableEq, Repr

/-- The body of the loop over the repositories (lines 118-140) for the owner
`repo_Owners[i]`, the name `repo_Names[i]` and the floor `repo_mVersions[i]`.
The remote service is the argument `fetch`: the tag names of the releases, or
the text of the error. -/
def processRepo (S : SortAlg) (newVersion : String → Option Version)
    (fetch : String → String → Except String (List String))
    (owner name : String) (minVersion : Version) : RunResult :=
  match fetch owner name with
  | Except.error err =>
    RunResult.mk [Event.listReleases owner name,
      Event.stdout ("Error in retrieving list releases! \n " ++ err ++ " \n")] none
  | Except.ok releases =>
    match parseReleases newVersion releases with
    | Except.error e => RunResult.mk [Event.listReleases owner name] (some e)
    | Except.ok allReleases =>
      RunResult.mk [Event.listReleases owner name,
        Event.stdout ("latest versions of " ++ owner ++ "/" ++ name ++ ": " ++
          formatVersions (LatestVersions S allReleases minVersion) ++ "\n")] none

/-- The loop `for i := 0; i < len(repo_Owners); i++` of `main` (lines 117-141): the
three slices are read at the same index `i`; reading past the end of a slice
panics, and a panic ends the run. -/
def mainLoop (S : SortAlg) (newVersion : String → Option Version)
    (fetch : String → String → Except String (List String)) :
    List String → List String → List Version → RunResult
  | [], _, _ => RunResult.mk [] none
  | _ :: _, [], _ => RunResult.mk [] (some Panic.indexOutOfRange)
  | owner :: owners, name :: names, [] =>
    match fetch owner name with
    | Except.error err =>
      let r := mainLoop S newVersion fetch owners names []
      RunResult.mk (Event.listReleases owner name ::
        Event.stdout ("Error in retrieving list releases! \n " ++ err ++ " \n") :: r.events)
        r.panic
    | Except.ok _ =>
      RunResult.mk [Event.listReleases owner name] (some Panic.indexOutOfRange)
  | owner :: owners, name :: names, minVersion :: mVersions =>
    let r := processRepo S newVersion fetch owner name minVersion
    match r.panic with
    | some e => RunResult.mk r.events (some e)
    | none =>
      let r2 := mainLoop S newVersion fetch owners names mVersions
      RunResult.mk (r.events ++ r2.events) r2.panic

/-- The function `main` after the input file has been opened, on the content
`text` of the file: load the queries through the scanner, then loop over the
repositories. -/
def mainRun (S : SortAlg) (newVersion : String → Option Version)
    (fetch : String → String → Except String (List String)) (text : String) :
    RunResult :=
  let st := loadQueries newVersion text
  mainLoop S newVersion fetch st.repo_Owners st.repo_Names st.repo_mVersions

theorem strCompare_antisymm : ∀ a b : List Char, strCompare a b = - strCompare b a
  | [], [] => by simp [strCompare]
  | [], _ :: _ => by simp [strCompare]
  | _ :: _, [] => by simp [strCompare]
  | a :: as, b :: bs => by
    have ih := strCompare_antisymm as bs
    simp only [strCompare]
    split_ifs <;> omega

theorem strCompare_trans : ∀ a b d : List Char,
    strCompare a b ≤ 0 → strCompare b d ≤ 0 → strCompare a d ≤ 0
  | [], [], _ => by simp [strCompare]
  | [], _ :: _, [] => by simp [strCompare]
  | [], _ :: _, _ :: _ => by simp [strCompare]
  | _ :: _, [], _ => by simp [strCompare]
  | _ :: _, _ :: _, [] => by simp [strCompare]
  | a :: as, b :: bs, d :: ds => by
    have ih := strCompare_trans as bs ds
    simp only [strCompare]
    split_ifs <;> omega

theorem strCompare_laws : CmpLaws strCompare :=
  ⟨strCompare_antisymm, strCompare_trans⟩

theorem recursivePreReleaseCompare_antisymm : ∀ a b : List (List Char),
    recursivePreReleaseCompare a b = - recursivePreReleaseCompare b a
  | [], [] => by simp [recursivePreReleaseCompare]
  | [], _ :: _ => by simp [recursivePreReleaseCompare]
  | _ :: _, [] => by simp [recursivePreReleaseCompare]
  | a :: as, b :: bs => by
    have ih := recursivePreReleaseCompare_antisymm as bs
    have hs := strCompare_antisymm a b
    simp only [recursivePreReleaseCompare]
    rcases atoi a with _ | x <;> rcases atoi b with _ | y <;> simp only <;>
      first
        | rfl
        | (split_ifs <;> omega)

theorem recursivePreReleaseCompare_trans : ∀ a b d : List (List Char),
    recursivePreReleaseCompare a b ≤ 0 → recursivePreReleaseCompare b d ≤ 0 →
    recursivePreReleaseCompare a d ≤ 0
  | [], [], _ => by simp [recursivePreReleaseCompare]
  | [], _ :: _, [] => by simp [recursivePreReleaseCompare]
  | [], _ :: _, _ :: _ => by simp [recursivePreReleaseCompare]
  | _ :: _, [], _ => by simp [recursivePreReleaseCompare]
  | _ :: _, _ :: _, [] => by simp [recursivePreReleaseCompare]
  | a :: as, b :: bs, d :: ds => by
    have ih := recursivePreReleaseCompare_trans as bs ds
    have h1 := strCompare_antisymm a b
    have h2 := strCompare_antisymm b d
    have h3 := strCompare_antisymm a d
    have t1 := strCompare_trans a b d
    have t2 := strCompare_trans b d a
    have t3 := strCompare_trans d a b
    simp only [recursivePreReleaseCompare]
    rcases atoi a with _ | x <;> rcases atoi b with _ | y <;> rcases atoi d with _ | z <;>
      simp only <;> intro _ _ <;> omega

theorem recursivePreReleaseCompare_laws : CmpLaws recursivePreReleaseCompare :=
  ⟨recursivePreReleaseCompare_antisymm, recursivePreReleaseCompare_trans⟩

theorem preReleaseCompare_laws : CmpLaws preReleaseCompare := by
  constructor
  · intro a b
    have h := recursivePreReleaseCompare_antisymm (splitDots a.data) (splitDots b.data)
    simp only [preReleaseCompare]
    split_ifs <;> omega
  · intro a b d
    have h := recursivePreReleaseCompare_trans (splitDots a.data) (splitDots b.data)
      (splitDots d.data)
    simp only [preReleaseCompare]
    split_ifs <;> omega

theorem recursiveCompare_antisymm : ∀ a b : List Int,
    recursiveCompare a b = - recursiveCompare b a
  | [], [] => by simp [recursiveCompare]
  | [], _ :: _ => by simp [recursiveCompare]
  | _ :: _, [] => by simp [recursiveCompare]
  | a :: as, b :: bs => by
    have ih := recursiveCompare_antisymm as bs
    simp only [recursiveCompare]
    split_ifs <;> omega

/-- On the slices of three numbers that `Compare` builds, `recursiveCompare` is
the lexicographic comparison of major, minor and patch. -/
theorem recursiveCompare_Slice (v w : Version) :
    recursiveCompare v.Slice w.Slice =
      if v.Major > w.Major then 1 else if v.Major < w.Major then -1
      else if v.Minor > w.Minor then 1 else if v.Minor < w.Minor then -1
      else if v.Patch > w.Patch then 1 else if v.Patch < w.Patch then -1
      else 0 := by
  simp only [Version.Slice, recursiveCompare]

/-- The lexicographic combination of two total preorders is a total preorder. -/
theorem CmpLaws.lex {α : Type} {c1 c2 : α → α → Int} (h1 : CmpLaws c1) (h2 : CmpLaws c2) :
    CmpLaws (lexCmp c1 c2) := by
  constructor
  · intro a b
    have e1 := h1.antisymm a b
    have e2 := h2.antisymm a b
    simp only [lexCmp]
    split_ifs <;> omega
  · intro a b d
    have e1 := h1.antisymm a b
    have e2 := h1.antisymm b d
    have e3 := h1.antisymm a d
    have t1 := h1.trans a b d
    have t2 := h1.trans b d a
    have t3 := h1.trans d a b
    have u := h2.trans a b d
    simp only [lexCmp]
    split_ifs <;> omega

/-- Comparing versions on one numeric component is a total preorder. -/
theorem CmpLaws.ofInt (f : Version → Int) : CmpLaws (cmpOn f) := by
  constructor
  · intro a b
    simp only [cmpOn]
    split_ifs <;> omega
  · intro a b d
    simp only [cmpOn]
    split_ifs <;> omega

/-- The comparison `Compare` is major, then minor, then patch, then pre-release. -/
theorem Compare_eq_lex (v w : Version) :
    v.Compare w =
      lexCmp (cmpOn Version.Major) (lexCmp (cmpOn Version.Minor) (lexCmp (cmpOn Version.Patch)
        (fun a b => preReleaseCompare a.PreRelease b.PreRelease))) v w := by
  simp only [Version.Compare, recursiveCompare_Slice, lexCmp, cmpOn]
  split_ifs <;> first | rfl | omega

theorem Compare_laws : CmpLaws Version.Compare := by
  have hp : CmpLaws (fun a b : Version => preReleaseCompare a.PreRelease b.PreRelease) :=
    ⟨fun a b => preReleaseCompare_laws.antisymm _ _,
     fun a b d => preReleaseCompare_laws.trans _ _ _⟩
  have h := (CmpLaws.ofInt Version.Major).lex
    ((CmpLaws.ofInt Version.Minor).lex ((CmpLaws.ofInt Version.Patch).lex hp))
  constructor
  · intro a b
    rw [Compare_eq_lex a b, Compare_eq_lex b a]
    exact h.antisymm a b
  · intro a b d
    rw [Compare_eq_lex a b, Compare_eq_lex b d, Compare_eq_lex a d]
    exact h.trans a b d

/-! ## The order `Version.le` and version lines -/

theorem lessThan_iff (a b : Version) : a.LessThan b = true ↔ a.Compare b < 0 := by
  simp [Version.LessThan]

theorem le_iff (a b : Version) : a.le b ↔ a.Compare b ≤ 0 := by
  have h := Compare_laws.antisymm a b
  simp only [Version.le, Version.LessThan, decide_eq_false_iff_not]
  omega

theorem le_refl (a : Version) : a.le a := by
  have h := Compare_laws.antisymm a a
  rw [le_iff]; omega

theorem le_total (a b : Version) : a.le b ∨ b.le a := by
  have h := Compare_laws.antisymm a b
  rw [le_iff, le_iff]; omega

theorem le_trans {a b c : Version} (h1 : a.le b) (h2 : b.le c) : a.le c := by
  rw [le_iff] at *
  exact Compare_laws.trans a b c h1 h2

theorem not_le_iff (a b : Version) : ¬ a.le b ↔ b.LessThan a = true := by
  simp [Version.le]

/-- A version that is not above another one is not on a later line. -/
theorem le_line {a b : Version} (h : a.le b) :
    a.Major < b.Major ∨ (a.Major = b.Major ∧ a.Minor ≤ b.Minor) := by
  rw [le_iff, Version.Compare, recursiveCompare_Slice] at h
  by_contra hc
  have : b.Major < a.Major ∨ (a.Major = b.Major ∧ b.Minor < a.Minor) := by omega
  rcases this with h1 | ⟨h1, h2⟩
  · have h3 : a.Major > b.Major := h1
    simp [h3] at h
  · have h3 : a.Minor > b.Minor := h2
    simp [h1, h3] at h

/-- A version on an earlier line is less than any version on a later line. -/
theorem lineLt_lessThan {a b : Version} (h : lineLt a b) : a.LessThan b = true := by
  rw [lessThan_iff, Version.Compare, recursiveCompare_Slice]
  rcases h with h | ⟨h1, h2⟩
  · have h3 : ¬ a.Major > b.Major := by omega
    simp [h3, h]
  · have h3 : ¬ a.Minor > b.Minor := by omega
    simp [h1, h3, h2]

theorem lineLt_le {a b : Version} (h : lineLt a b) : a.le b := by
  have h1 := lineLt_lessThan h
  rw [lessThan_iff] at h1
  rw [le_iff]; omega

theorem lineLt_not_le {a b : Version} (h : lineLt a b) : ¬ b.le a := by
  rw [not_le_iff]; exact lineLt_lessThan h

theorem lineLt_trans {a b c : Version} (h1 : lineLt a b) (h2 : lineLt b c) : lineLt a c := by
  unfold lineLt at *; omega

theorem lineLt_irrefl (a : Version) : ¬ lineLt a a := by
  unfold lineLt; omega

theorem line_eq_iff (a b : Version) : a.line = b.line ↔ a.Major = b.Major ∧ a.Minor = b.Minor := by
  simp [Version.line]

theorem lineLt_line_ne {a b : Version} (h : lineLt a b) : a.line ≠ b.line := by
  rw [Ne, line_eq_iff]; unfold lineLt at h; omega

/-- Two ordered versions are on the same line or the lower one is on an earlier line. -/
theorem le_line_cases {a b : Version} (h : a.le b) : a.line = b.line ∨ lineLt a b := by
  have := le_line h
  rw [line_eq_iff]; unfold lineLt; omega

theorem versionsLess_contract : LessContract versionsLess := by
  constructor
  · intro a
    exact le_refl a
  · intro a b c h1 h2
    simp only [versionsLess, lessThan_iff] at *
    have e1 := Compare_laws.antisymm a b
    have e2 := Compare_laws.antisymm b c
    have e3 := Compare_laws.antisymm a c
    have t := Compare_laws.trans c a b
    omega
  · intro a b c h1 h2
    exact le_trans (a := c) (b := b) (c := a) h2 h1

theorem reverseLess_contract : LessContract reverseLess := by
  constructor
  · intro a
    exact versionsLess_contract.irrefl a
  · intro a b c h1 h2
    exact versionsLess_contract.trans c b a h2 h1
  · intro a b c h1 h2
    exact versionsLess_contract.negTrans c b a h2 h1

/-! ## The scan of a sorted slice -/

theorem scanStep_skip {f r : Version} (s : ScanState) (h : r.LessThan f = true) :
    scanStep f s r = s := by
  simp [scanStep, h]

theorem scan_qualifying (f : Version) (l : List Version) (s : ScanState) :
    scan f l s = scan f (qualifying f l) s := by
  induction l generalizing s with
  | nil => rfl
  | cons r t ih =>
    cases h : r.LessThan f
    · have hq : qualifying f (r :: t) = r :: qualifying f t := by
        simp [qualifying, h]
      rw [hq]
      simp only [scan, List.foldl_cons] at ih ⊢
      exact ih _
    · have hq : qualifying f (r :: t) = qualifying f t := by
        simp [qualifying, h]
      rw [hq]
      simp only [scan, List.foldl_cons, scanStep_skip s h] at ih ⊢
      exact ih _

/-- One step of the loop on a sorted slice, after a first version has been
accepted: the tracked line is the line of `prev`, the test of the code fires
exactly when the line changes, and then `prev` is emitted. -/
theorem scanStep_tracked {f p b : Version} (s : ScanState)
    (hprev : s.prev = some p) (hmaj : s.major = p.Major) (hmin : s.minor = p.Minor)
    (hle : p.le b) (hq : b.LessThan f = false) :
    (scanStep f s b).prev = some b ∧ (scanStep f s b).major = b.Major ∧
    (scanStep f s b).minor = b.Minor ∧
    (scanStep f s b).versionSlice =
      s.versionSlice ++ (if p.line = b.line then [] else [p]) := by
  have hl := le_line hle
  by_cases hsame : p.line = b.line
  · have h2 := (line_eq_iff p b).mp hsame
    have e1 : ¬ (p.Major < b.Major) := by omega
    have e2 : ¬ (p.Minor < b.Minor) := by omega
    simp [scanStep, hq, hprev, hmaj, hmin, e1, e2, hsame, h2.1, h2.2]
  · have h2 : p.Major < b.Major ∨ p.Minor < b.Minor := by
      rw [line_eq_iff] at hsame; omega
    simp [scanStep, hq, hprev, hmaj, hmin, h2, hsame]

theorem scan_tracked (f : Version) : ∀ (t : List Version) (p : Version) (s : ScanState),
    s.prev = some p → s.major = p.Major → s.minor = p.Minor →
    (p :: t).Pairwise Version.le → (∀ x ∈ t, x.LessThan f = false) →
    collected (scan f t s) = s.versionSlice ++ lineLasts (p :: t)
  | [], p, s, hprev, _, _, _, _ => by
    simp [scan, collected, hprev, lineLasts]
  | b :: t, p, s, hprev, hmaj, hmin, hsorted, hq => by
    have hpb : p.le b := (List.pairwise_cons.mp hsorted).1 b (List.mem_cons_self _ _)
    have hb : b.LessThan f = false := hq b (List.mem_cons_self _ _)
    obtain ⟨h1, h2, h3, h4⟩ := scanStep_tracked s hprev hmaj hmin hpb hb
    have ih := scan_tracked f t b (scanStep f s b) h1 h2 h3
      (List.pairwise_cons.mp hsorted).2 (fun x hx => hq x (List.mem_cons_of_mem _ hx))
    have e : scan f (b :: t) s = scan f t (scanStep f s b) := rfl
    rw [e, ih, h4]
    by_cases hsame : p.line = b.line
    · simp [lineLasts, hsame]
    · simp [lineLasts, hsame]

/-- The first accepted version initialises the tracked line and `prev`, and the
test of the code does not fire on it. -/
theorem scanStep_first {f p : Version} (hq : p.LessThan f = false) :
    (scanStep f scanInit p).prev = some p ∧ (scanStep f scanInit p).major = p.Major ∧
    (scanStep f scanInit p).minor = p.Minor ∧ (scanStep f scanInit p).versionSlice = [] := by
  simp [scanStep, scanInit, hq]

/-- On a sorted slice the loop collects the last version of every line among the
versions at or above the floor. -/
theorem collected_scan_sorted (f : Version) (l : List Version) (hs : l.Pairwise Version.le) :
    collected (scan f l scanInit) = lineLasts (qualifying f l) := by
  rw [scan_qualifying]
  have hsq : (qualifying f l).Pairwise Version.le := hs.sublist (List.filter_sublist l)
  have hq : ∀ x ∈ qualifying f l, x.LessThan f = false := by
    intro x hx
    have := (List.mem_filter.mp hx).2
    simpa using this
  generalize qualifying f l = q at hsq hq
  cases q with
  | nil => rfl
  | cons p t =>
    have hp := hq p (List.mem_cons_self _ _)
    obtain ⟨h1, h2, h3, h4⟩ := scanStep_first hp
    have e : scan f (p :: t) scanInit = scan f t (scanStep f scanInit p) := rfl
    rw [e, scan_tracked f t p _ h1 h2 h3 hsq (fun x hx => hq x (List.mem_cons_of_mem _ hx)), h4]
    rfl

/-! ## Properties of `lineLasts` on a sorted slice -/

theorem lineLasts_sublist : ∀ l : List Version, (lineLasts l).Sublist l
  | [] => List.Sublist.refl _
  | [a] => List.Sublist.refl _
  | a :: b :: t => by
    have ih := lineLasts_sublist (b :: t)
    simp only [lineLasts]
    split_ifs
    · exact ih.cons a
    · exact ih.cons₂ a

theorem lineLt_of_lineLt_of_le {a b c : Version} (h1 : lineLt a b) (h2 : b.le c) :
    lineLt a c := by
  rcases le_line_cases h2 with h | h
  · rw [line_eq_iff] at h
    unfold lineLt at *; omega
  · exact lineLt_trans h1 h

/-- The lines of the collected versions are strictly ascending. -/
theorem lineLasts_pairwise : ∀ l : List Version, l.Pairwise Version.le →
    (lineLasts l).Pairwise lineLt
  | [], _ => List.Pairwise.nil
  | [a], _ => by simp [lineLasts]
  | a :: b :: t, hs => by
    have hs2 := (List.pairwise_cons.mp hs).2
    have ih := lineLasts_pairwise (b :: t) hs2
    simp only [lineLasts]
    split_ifs with hsame
    · exact ih
    · refine List.pairwise_cons.mpr ⟨?_, ih⟩
      intro x hx
      have hab : a.le b := (List.pairwise_cons.mp hs).1 b (List.mem_cons_self _ _)
      have hlt : lineLt a b := (le_line_cases hab).resolve_left hsame
      have hxm : x ∈ b :: t := (lineLasts_sublist (b :: t)).subset hx
      rcases List.mem_cons.mp hxm with rfl | hxt
      · exact hlt
      · exact lineLt_of_lineLt_of_le hlt ((List.pairwise_cons.mp hs2).1 x hxt)

/-- Every version of a sorted slice is dominated by the collected version of its
line. -/
theorem lineLasts_covers : ∀ l : List Version, l.Pairwise Version.le →
    ∀ v ∈ l, ∃ x ∈ lineLasts l, x.line = v.line ∧ v.le x
  | [], _, v, hv => by simp at hv
  | [a], _, v, hv => by
    have : v = a := by simpa using hv
    subst this
    exact ⟨v, by simp [lineLasts], rfl, le_refl v⟩
  | a :: b :: t, hs, v, hv => by
    have hs2 := (List.pairwise_cons.mp hs).2
    have ih := lineLasts_covers (b :: t) hs2
    have hab : a.le b := (List.pairwise_cons.mp hs).1 b (List.mem_cons_self _ _)
    simp only [lineLasts]
    rcases List.mem_cons.mp hv with rfl | hvt
    · split_ifs with hsame
      · obtain ⟨x, hx, hl, hle⟩ := ih b (List.mem_cons_self _ _)
        exact ⟨x, hx, hl.trans hsame.symm, le_trans hab hle⟩
      · exact ⟨v, List.mem_cons_self _ _, rfl, le_refl v⟩
    · obtain ⟨x, hx, hl, hle⟩ := ih v hvt
      split_ifs
      · exact ⟨x, hx, hl, hle⟩
      · exact ⟨x, List.mem_cons_of_mem _ hx, hl, hle⟩

/-- Members of a list whose lines are pairwise ordered are equal when they share
a line. -/
theorem eq_of_line_eq {l : List Version} (h : l.Pairwise lineLt) {a b : Version}
    (ha : a ∈ l) (hb : b ∈ l) (hl : a.line = b.line) : a = b := by
  by_contra hne
  have hp : l.Pairwise (fun x y => x.line ≠ y.line) := h.imp (fun h => lineLt_line_ne h)
  exact hp.forall (fun x y hxy => hxy.symm) ha hb hne hl

/-- A collected version is the greatest version of its line in the slice. -/
theorem lineLasts_max (l : List Version) (hs : l.Pairwise Version.le) :
    ∀ x ∈ lineLasts l, ∀ v ∈ l, v.line = x.line → v.le x := by
  intro x hx v hv hl
  obtain ⟨y, hy, hyl, hle⟩ := lineLasts_covers l hs v hv
  have : y = x := eq_of_line_eq (lineLasts_pairwise l hs) hy hx (hyl.trans hl)
  exact this ▸ hle

/-- A slice whose lines are strictly ascending is collected unchanged. -/
theorem lineLasts_of_pairwise : ∀ l : List Version, l.Pairwise lineLt → lineLasts l = l
  | [], _ => rfl
  | [a], _ => rfl
  | a :: b :: t, h => by
    have hab : lineLt a b := (List.pairwise_cons.mp h).1 b (List.mem_cons_self _ _)
    have ih := lineLasts_of_pairwise (b :: t) (List.pairwise_cons.mp h).2
    simp only [lineLasts, lineLt_line_ne hab, if_false, ih]

/-! ## The result of `LatestVersions` -/

theorem sort_ascending (S : SortAlg) (l : List Version) :
    (S.sort versionsLess l).Pairwise Version.le :=
  S.sorted versionsLess l versionsLess_contract

theorem sort_descending (S : SortAlg) (l : List Version) :
    (S.sort reverseLess l).Pairwise (fun a b => b.le a) :=
  S.sorted reverseLess l reverseLess_contract

theorem LatestVersions_eq (S : SortAlg) (l : List Version) (f : Version) :
    LatestVersions S l f = S.sort reverseLess (collectedOf S l f) := by
  have h := collected_scan_sorted f (S.sort versionsLess l) (sort_ascending S l)
  simp only [collected] at h
  simp only [LatestVersions, LatestVersionsRun, collectedOf, h]

theorem qualifying_sorted (S : SortAlg) (l : List Version) (f : Version) :
    (qualifying f (S.sort versionsLess l)).Pairwise Version.le :=
  (sort_ascending S l).sublist (List.filter_sublist _)

theorem mem_qualifying_sort (S : SortAlg) (l : List Version) (f v : Version) :
    v ∈ qualifying f (S.sort versionsLess l) ↔ v ∈ l ∧ v.LessThan f = false := by
  simp [qualifying, List.mem_filter, (S.perm versionsLess l).mem_iff]

theorem collectedOf_pairwise (S : SortAlg) (l : List Version) (f : Version) :
    (collectedOf S l f).Pairwise lineLt :=
  lineLasts_pairwise _ (qualifying_sorted S l f)

theorem mem_LatestVersions (S : SortAlg) (l : List Version) (f e : Version) :
    e ∈ LatestVersions S l f ↔ e ∈ collectedOf S l f := by
  rw [LatestVersions_eq]
  exact (S.perm reverseLess _).mem_iff

theorem mem_collectedOf (S : SortAlg) (l : List Version) (f e : Version)
    (h : e ∈ collectedOf S l f) : e ∈ l ∧ e.LessThan f = false :=
  (mem_qualifying_sort S l f e).mp ((lineLasts_sublist _).subset h)

/-- The lines of the result are strictly descending. -/
theorem LatestVersions_pairwise (S : SortAlg) (l : List Version) (f : Version) :
    (LatestVersions S l f).Pairwise (fun a b => lineLt b a) := by
  rw [LatestVersions_eq]
  have hne : (collectedOf S l f).Pairwise (fun a b => a.line ≠ b.line) :=
    (collectedOf_pairwise S l f).imp (fun h => lineLt_line_ne h)
  have hne2 : (S.sort reverseLess (collectedOf S l f)).Pairwise (fun a b => a.line ≠ b.line) :=
    (S.perm reverseLess _).symm.pairwise hne (fun h => h.symm)
  have hd := sort_descending S (collectedOf S l f)
  exact (hd.and hne2).imp (fun h => (le_line_cases h.1).resolve_left (fun e => h.2 e.symm))

/-- Every input version at or above the floor is dominated by the result entry of
its line. -/
theorem LatestVersions_covers (S : SortAlg) (l : List Version) (f v : Version)
    (hv : v ∈ l) (hq : v.LessThan f = false) :
    ∃ e ∈ LatestVersions S l f, e.line = v.line ∧ v.le e := by
  obtain ⟨x, hx, hl, hle⟩ := lineLasts_covers _ (qualifying_sorted S l f) v
    ((mem_qualifying_sort S l f v).mpr ⟨hv, hq⟩)
  exact ⟨x, (mem_LatestVersions S l f x).mpr hx, hl, hle⟩

/-- A result entry is in the input, at or above the floor, and the greatest of
its line among such input versions. -/
theorem LatestVersions_max (S : SortAlg) (l : List Version) (f e : Version)
    (he : e ∈ LatestVersions S l f) :
    e ∈ l ∧ e.LessThan f = false ∧
      ∀ v ∈ l, v.line = e.line → v.LessThan f = false → v.le e := by
  rw [mem_LatestVersions] at he
  obtain ⟨h1, h2⟩ := mem_collectedOf S l f e he
  refine ⟨h1, h2, fun v hv hl hq => ?_⟩
  exact lineLasts_max _ (qualifying_sorted S l f) e he v
    ((mem_qualifying_sort S l f v).mpr ⟨hv, hq⟩) hl

/-- Two sorting procedures agree on a slice without two different elements that
compare equal. -/
theorem sort_unique (S T : SortAlg) (less : Version → Version → Bool) (l : List Version)
    (hc : LessContract less)
    (hl : ∀ a ∈ l, ∀ b ∈ l, less b a = false → less a b = false → a = b) :
    S.sort less l = T.sort less l := by
  refine List.Perm.eq_of_sorted ?_ (S.sorted less l hc) (T.sorted less l hc)
    ((S.perm less l).trans (T.perm less l).symm)
  intro a b ha hb h1 h2
  exact hl a ((S.perm less l).mem_iff.mp ha) b ((T.perm less l).mem_iff.mp hb) h1 h2

/-- Versions of different build metadata only are the one source of freedom of
the sort: on an input without two different versions that compare equal, every
sorting procedure gives `LatestVersions` the same result. -/
theorem LatestVersions_sortAlg_irrel (S T : SortAlg) (l : List Version) (f : Version)
    (hl : ∀ a ∈ l, ∀ b ∈ l, a.Equal b = true → a = b) :
    LatestVersions S l f = LatestVersions T l f := by
  have h1 : S.sort versionsLess l = T.sort versionsLess l := by
    refine sort_unique S T versionsLess l versionsLess_contract ?_
    intro a ha b hb hba hab
    refine hl a ha b hb ?_
    have e1 : a.le b := hba
    have e2 : b.le a := hab
    rw [le_iff] at e1 e2
    have := Compare_laws.antisymm a b
    simp only [Version.Equal, decide_eq_true_eq]
    omega
  have h2 : collectedOf S l f = collectedOf T l f := by
    simp only [collectedOf, h1]
  rw [LatestVersions_eq, LatestVersions_eq, h2]
  refine sort_unique S T reverseLess _ reverseLess_contract ?_
  intro a ha b hb hba hab
  have e1 : b.le a := hba
  refine eq_of_line_eq (collectedOf_pairwise T l f) ha hb ?_
  rcases le_line_cases e1 with h | h
  · exact h.symm
  · exact absurd (lineLt_lessThan h) (by
      have : b.LessThan a = false := hab
      simp [this])

theorem noTies_spec {l : List Version} (h : noTies l = true) :
    ∀ a ∈ l, ∀ b ∈ l, a.Equal b = true → a = b := by
  intro a ha b hb hab
  simp only [noTies, List.all_eq_true] at h
  have := h a ha b hb
  simpa [hab] using this

/-- On an input without ties the result is the one computed with insertion sort. -/
theorem LatestVersions_eval (S : SortAlg) (l : List Version) (f : Version)
    (h : noTies l = true) :
    LatestVersions S l f = LatestVersions insertionSortAlg l f :=
  LatestVersions_sortAlg_irrel S insertionSortAlg l f (noTies_spec h)

/-- A sorted arrangement of a slice without ties is what every sorting procedure
returns. -/
theorem sort_eq_of_sorted (S : SortAlg) (less : Version → Version → Bool)
    (l l' : List Version) (hc : LessContract less) (hp : l'.Perm l)
    (hs : l'.Pairwise (fun a b => less b a = false))
    (hl : ∀ a ∈ l, ∀ b ∈ l, less b a = false → less a b = false → a = b) :
    S.sort less l = l' := by
  refine List.Perm.eq_of_sorted ?_ (S.sorted less l hc) hs ((S.perm less l).trans hp.symm)
  intro a b ha hb h1 h2
  exact hl a ((S.perm less l).mem_iff.mp ha) b (hp.mem_iff.mp hb) h1 h2

/-- Versions with pairwise ordered lines that compare equal are the same version. -/
theorem eq_of_le_of_le {l : List Version} (h : l.Pairwise (fun a b => lineLt b a))
    {a b : Version} (ha : a ∈ l) (hb : b ∈ l) (hab : a.le b) (hba : b.le a) : a = b := by
  have h2 : l.reverse.Pairwise lineLt := List.pairwise_reverse.mpr h
  refine eq_of_line_eq h2 (List.mem_reverse.mpr ha) (List.mem_reverse.mpr hb) ?_
  rcases le_line_cases hab with e | e
  · exact e
  · exact absurd hba (lineLt_not_le e)

/-- A version with the floor's major and minor and a lower patch is less than the
floor. -/
theorem lessThan_of_patch_lt {u f : Version} (h1 : u.Major = f.Major)
    (h2 : u.Minor = f.Minor) (h3 : u.Patch < f.Patch) : u.LessThan f = true := by
  rw [lessThan_iff, Version.Compare, recursiveCompare_Slice]
  have h4 : ¬ u.Patch > f.Patch := by omega
  simp [h1, h2, h3, h4]

theorem equal_iff (a b : Version) : a.Equal b = true ↔ a.Compare b = 0 := by
  simp [Version.Equal]

/-! ## The claims -/

/-- C1: for every list of versions and every floor, each entry of
`LatestVersions releases floor` is an input version, is not less than the floor,
and is the maximum under semantic-version order (`Version.Compare`: major, then
minor, then patch, then pre-release) of the input versions that share its
(major, minor) and are not less than the floor. Scenario C: the input
`[2.1.0, 2.1.3, 2.2.0]` with floor `2.1.0` gives `[2.2.0, 2.1.3]`. -/
theorem C1_entry_is_line_maximum (S : SortAlg) (releases : List Version) (floor : Version) :
    (∀ e ∈ LatestVersions S releases floor,
      e ∈ releases ∧ e.LessThan floor = false ∧
      ∀ v ∈ releases, v.line = e.line → v.LessThan floor = false → v.LessThan e = true ∨ v.Equal e = true) ∧
    LatestVersions S [mkVersion 2 1 0, mkVersion 2 1 3, mkVersion 2 2 0] (mkVersion 2 1 0)
      = [mkVersion 2 2 0, mkVersion 2 1 3] := by
  constructor
  · intro e he
    obtain ⟨h1, h2, h3⟩ := LatestVersions_max S releases floor e he
    refine ⟨h1, h2, fun v hv hl hq => ?_⟩
    have hle := h3 v hv hl hq
    rw [le_iff] at hle
    simp only [Version.LessThan, Version.Equal, decide_eq_true_eq]
    omega
  · rw [LatestVersions_eval S _ _ (by decide)]
    decide

/-- C2 as the code has it: `LatestVersions` applied to the input
`[1.0.0, 1.1.0, 1.1.1, 2.0.0]` with floor `1.0.0` returns exactly
`[2.0.0, 1.1.1, 1.0.0]`: the line `1.0` is at or above the floor and keeps its
entry `1.0.0`. -/
theorem C2_scenarioA_amended (S : SortAlg) :
    LatestVersions S [mkVersion 1 0 0, mkVersion 1 1 0, mkVersion 1 1 1, mkVersion 2 0 0]
      (mkVersion 1 0 0) = [mkVersion 2 0 0, mkVersion 1 1 1, mkVersion 1 0 0] := by
  rw [LatestVersions_eval S _ _ (by decide)]
  decide

/-- C2 as stated fails: with no sorting procedure does `LatestVersions` return
`[2.0.0, 1.1.1]` on the input `[1.0.0, 1.1.0, 1.1.1, 2.0.0]` with floor `1.0.0`. -/
theorem C2_scenarioA_counterexample :
    ¬ ∃ S : SortAlg,
      LatestVersions S [mkVersion 1 0 0, mkVersion 1 1 0, mkVersion 1 1 1, mkVersion 2 0 0]
        (mkVersion 1 0 0) = [mkVersion 2 0 0, mkVersion 1 1 1] := by
  rintro ⟨S, h⟩
  rw [LatestVersions_eval S _ _ (by decide)] at h
  revert h
  decide

/-- C3: for every input and floor the result of `LatestVersions` has exactly one
entry per surviving version line: a (major, minor) pair occurs in the result if
and only if some input version of that line is not less than the floor, no pair
occurs twice, and the length of the result is the number of distinct
(major, minor) pairs among the input versions at or above the floor. -/
theorem C3_one_entry_per_surviving_line (S : SortAlg) (releases : List Version)
    (floor : Version) :
    (∀ p : Int × Int, p ∈ (LatestVersions S releases floor).map Version.line ↔
      ∃ v ∈ releases, v.line = p ∧ v.LessThan floor = false) ∧
    ((LatestVersions S releases floor).map Version.line).Nodup ∧
    (LatestVersions S releases floor).length =
      (((releases.filter (fun v => !v.LessThan floor)).map Version.line).dedup).length := by
  have hiff : ∀ p : Int × Int, p ∈ (LatestVersions S releases floor).map Version.line ↔
      ∃ v ∈ releases, v.line = p ∧ v.LessThan floor = false := by
    intro p
    constructor
    · intro hp
      obtain ⟨e, he, rfl⟩ := List.mem_map.mp hp
      obtain ⟨h1, h2, _⟩ := LatestVersions_max S releases floor e he
      exact ⟨e, h1, rfl, h2⟩
    · rintro ⟨v, hv, rfl, hq⟩
      obtain ⟨e, he, hl, _⟩ := LatestVersions_covers S releases floor v hv hq
      exact List.mem_map.mpr ⟨e, he, hl⟩
  have hnd : ((LatestVersions S releases floor).map Version.line).Nodup := by
    rw [List.Nodup, List.pairwise_map]
    exact (LatestVersions_pairwise S releases floor).imp (fun h => (lineLt_line_ne h).symm)
  refine ⟨hiff, hnd, ?_⟩
  have hset : ((LatestVersions S releases floor).map Version.line).toFinset =
      ((releases.filter (fun v => !v.LessThan floor)).map Version.line).toFinset := by
    ext p
    rw [List.mem_toFinset, List.mem_toFinset, hiff p]
    simp only [List.mem_map, List.mem_filter, Bool.not_eq_true']
    constructor
    · rintro ⟨v, hv, hl, hq⟩
      exact ⟨v, ⟨hv, hq⟩, hl⟩
    · rintro ⟨v, ⟨hv, hq⟩, hl⟩
      exact ⟨v, hv, hl, hq⟩
  calc (LatestVersions S releases floor).length
      = ((LatestVersions S releases floor).map Version.line).length := by
        rw [List.length_map]
    _ = ((LatestVersions S releases floor).map Version.line).toFinset.card :=
        (List.toFinset_card_of_nodup hnd).symm
    _ = ((releases.filter (fun v => !v.LessThan floor)).map Version.line).toFinset.card := by
        rw [hset]
    _ = (((releases.filter (fun v => !v.LessThan floor)).map Version.line).dedup).length :=
        List.card_toFinset _

/-- C4: for every input and floor no two entries of the result of
`LatestVersions` share the same (major, minor); in particular the result holds
no version twice, however often the input repeats a version. -/
theorem C4_no_two_entries_share_a_line (S : SortAlg) (releases : List Version)
    (floor : Version) :
    (LatestVersions S releases floor).Pairwise
      (fun a b => ¬ (a.Major = b.Major ∧ a.Minor = b.Minor)) ∧
    (LatestVersions S releases floor).Nodup := by
  have h := LatestVersions_pairwise S releases floor
  constructor
  · refine h.imp (fun {a b} hab => ?_)
    unfold lineLt at hab
    omega
  · refine h.imp (fun {a b} hab => ?_)
    rintro rfl
    exact lineLt_irrefl _ hab

/-- The first element of a non-empty result is an input version at or above the
floor, and no input version is greater. -/
theorem LatestVersions_head_highest (S : SortAlg) (l : List Version) (f h : Version)
    (t : List Version) (hR : LatestVersions S l f = h :: t) :
    h ∈ l ∧ h.LessThan f = false ∧ ∀ v ∈ l, h.LessThan v = false := by
  have hpw := LatestVersions_pairwise S l f
  have hmem : h ∈ LatestVersions S l f := by rw [hR]; exact List.mem_cons_self _ _
  obtain ⟨hin, hfl, _⟩ := LatestVersions_max S l f h hmem
  refine ⟨hin, hfl, fun v hv => ?_⟩
  cases hq : v.LessThan f
  · obtain ⟨e, he, _, hve⟩ := LatestVersions_covers S l f v hv hq
    have heh : e.le h := by
      rw [hR] at he hpw
      rcases List.mem_cons.mp he with rfl | het
      · exact le_refl _
      · exact lineLt_le ((List.pairwise_cons.mp hpw).1 e het)
    exact le_trans hve heh
  · have h1 : v.le f := by
      rw [lessThan_iff] at hq
      rw [le_iff]; omega
    exact le_trans h1 hfl

/-- C5: for every input and floor the result of `LatestVersions` is sorted
strictly descending by (major, minor): for consecutive entries `a`, `b` (and for
any earlier `a` and later `b`) either `a.Major > b.Major`, or
`a.Major = b.Major` and `a.Minor > b.Minor`; and the highest version is its
first element: as soon as some input version is not less than the floor the
result is not empty, its first element is an input version, and no input version
is greater than it. The input `[1.0.0, 2.1.0, 2.0.5, 1.7.3]` with floor `1.0.0`
gives `[2.1.0, 2.0.5, 1.7.3, 1.0.0]`. -/
theorem C5_sorted_strictly_descending (S : SortAlg) (releases : List Version)
    (floor : Version) :
    (LatestVersions S releases floor).Chain'
      (fun a b => a.Major > b.Major ∨ (a.Major = b.Major ∧ a.Minor > b.Minor)) ∧
    (LatestVersions S releases floor).Pairwise
      (fun a b => a.Major > b.Major ∨ (a.Major = b.Major ∧ a.Minor > b.Minor)) ∧
    (∀ h ∈ (LatestVersions S releases floor).head?, ∀ v ∈ releases, h.LessThan v = false) ∧
    ((∃ v ∈ releases, v.LessThan floor = false) →
      ∃ h t, LatestVersions S releases floor = h :: t ∧ h ∈ releases ∧
        h.LessThan floor = false ∧ ∀ v ∈ releases, h.LessThan v = false) ∧
    LatestVersions S [mkVersion 1 0 0, mkVersion 2 1 0, mkVersion 2 0 5, mkVersion 1 7 3]
      (mkVersion 1 0 0)
      = [mkVersion 2 1 0, mkVersion 2 0 5, mkVersion 1 7 3, mkVersion 1 0 0] := by
  have hp : (LatestVersions S releases floor).Pairwise
      (fun a b => a.Major > b.Major ∨ (a.Major = b.Major ∧ a.Minor > b.Minor)) := by
    refine (LatestVersions_pairwise S releases floor).imp (fun {a b} hab => ?_)
    unfold lineLt at hab
    omega
  refine ⟨List.Pairwise.chain' hp, hp, ?_, ?_, ?_⟩
  · intro h hh v hv
    cases hR : LatestVersions S releases floor with
    | nil => rw [hR] at hh; simp at hh
    | cons x t =>
      rw [hR] at hh
      have hx : x = h := by simpa using hh
      subst hx
      exact (LatestVersions_head_highest S releases floor x t hR).2.2 v hv
  · rintro ⟨v, hv, hq⟩
    obtain ⟨e, he, _, _⟩ := LatestVersions_covers S releases floor v hv hq
    cases hR : LatestVersions S releases floor with
    | nil => rw [hR] at he; simp at he
    | cons x t =>
      exact ⟨x, t, rfl, LatestVersions_head_highest S releases floor x t hR⟩
  · rw [LatestVersions_eval S _ _ (by decide)]
    decide

/-- C6: for every list of versions (non-empty or empty) and every floor, every
entry of the result of `LatestVersions` is greater than or equal to the floor
under semantic-version order: it is not less than the floor, that is, the floor
is less than it or equal to it. -/
theorem C6_entries_at_or_above_floor (S : SortAlg) (releases : List Version)
    (floor : Version) :
    ∀ e ∈ LatestVersions S releases floor,
      e.LessThan floor = false ∧ (floor.LessThan e = true ∨ floor.Equal e = true) := by
  intro e he
  have h := (LatestVersions_max S releases floor e he).2.1
  refine ⟨h, ?_⟩
  have hle : floor.le e := h
  rw [le_iff] at hle
  simp only [Version.LessThan, Version.Equal, decide_eq_true_eq]
  omega

/-- An instance of C6: on the input `[1.0.0, 1.1.0, 1.1.1, 2.0.0]` with floor
`1.0.5` the version `1.1.1` is an entry of the result, and it is not less than
the floor. -/
theorem C6_entries_at_or_above_floor_witness :
    mkVersion 1 1 1 ∈ LatestVersions insertionSortAlg
      [mkVersion 1 0 0, mkVersion 1 1 0, mkVersion 1 1 1, mkVersion 2 0 0] (mkVersion 1 0 5) ∧
    (mkVersion 1 1 1).LessThan (mkVersion 1 0 5) = false ∧
    ((mkVersion 1 0 5).LessThan (mkVersion 1 1 1) = true ∨
      (mkVersion 1 0 5).Equal (mkVersion 1 1 1) = true) :=
  ⟨by decide,
   C6_entries_at_or_above_floor insertionSortAlg
     [mkVersion 1 0 0, mkVersion 1 1 0, mkVersion 1 1 1, mkVersion 2 0 0] (mkVersion 1 0 5)
     (mkVersion 1 1 1) (by decide)⟩

/-- C7 as the code has it: `LatestVersions` leaves the floor unchanged, but it
sorts the caller's sequence in place: after the call the sequence holds the same
elements (a permutation of the original) in ascending semantic-version order,
and it is in its original order when that order was strictly ascending. -/
theorem C7_sorts_caller_slice_in_place (S : SortAlg) (releases : List Version)
    (floor : Version) :
    (LatestVersionsRun S releases floor).minVersion = floor ∧
    (LatestVersionsRun S releases floor).releases.Perm releases ∧
    (LatestVersionsRun S releases floor).releases.Pairwise (fun a b => b.LessThan a = false) ∧
    (releases.Pairwise (fun a b => a.LessThan b = true) →
      (LatestVersionsRun S releases floor).releases = releases) := by
  refine ⟨rfl, S.perm versionsLess releases, sort_ascending S releases, fun hs => ?_⟩
  refine sort_eq_of_sorted S versionsLess releases releases versionsLess_contract
    (List.Perm.refl _) ?_ ?_
  · refine hs.imp (fun {a b} hab => ?_)
    have e := Compare_laws.antisymm a b
    rw [lessThan_iff] at hab
    show a.le b
    rw [le_iff]; omega
  · intro a ha b hb hba hab
    by_contra hne
    have hsym : Symmetric (fun a b : Version => a.LessThan b = true ∨ b.LessThan a = true) :=
      fun x y hxy => hxy.symm
    have := (hs.imp (fun {x y} (hxy : x.LessThan y = true) =>
      (Or.inl hxy : x.LessThan y = true ∨ y.LessThan x = true))).forall hsym ha hb hne
    have e1 : b.LessThan a = false := hba
    have e2 : a.LessThan b = false := hab
    rw [e1, e2] at this
    simp at this

/-- C7 as stated fails: with no sorting procedure does the caller's sequence
`[2.0.0, 1.0.0]` hold its elements in the same order after the call. -/
theorem C7_counterexample :
    ¬ ∃ S : SortAlg,
      (LatestVersionsRun S [mkVersion 2 0 0, mkVersion 1 0 0] (mkVersion 1 0 0)).releases
        = [mkVersion 2 0 0, mkVersion 1 0 0] := by
  rintro ⟨S, h⟩
  have hs := sort_ascending S [mkVersion 2 0 0, mkVersion 1 0 0]
  have h2 : S.sort versionsLess [mkVersion 2 0 0, mkVersion 1 0 0]
      = [mkVersion 2 0 0, mkVersion 1 0 0] := h
  rw [h2] at hs
  have h3 : (mkVersion 1 0 0).LessThan (mkVersion 2 0 0) = false :=
    (List.pairwise_cons.mp hs).1 _ (List.mem_cons_self _ _)
  revert h3
  decide

/-- C8: idempotence: for every input and floor, applying `LatestVersions` with
the same floor to the result of `LatestVersions` returns that same result
unchanged (same entries, same order). -/
theorem C8_idempotent (S : SortAlg) (releases : List Version) (floor : Version) :
    LatestVersions S (LatestVersions S releases floor) floor
      = LatestVersions S releases floor := by
  have hp := LatestVersions_pairwise S releases floor
  have hq : ∀ e ∈ LatestVersions S releases floor, e.LessThan floor = false :=
    fun e he => (LatestVersions_max S releases floor e he).2.1
  generalize LatestVersions S releases floor = R at hp hq
  have hrev : R.reverse.Pairwise lineLt := List.pairwise_reverse.mpr hp
  have h1 : S.sort versionsLess R = R.reverse := by
    refine sort_eq_of_sorted S versionsLess R R.reverse versionsLess_contract
      (List.reverse_perm R) (hrev.imp (fun h => lineLt_le h)) ?_
    intro a ha b hb hba hab
    exact eq_of_le_of_le hp ha hb hba hab
  have h2 : qualifying floor R.reverse = R.reverse := by
    refine List.filter_eq_self.mpr (fun e he => ?_)
    simp [hq e (List.mem_reverse.mp he)]
  have h3 : collectedOf S R floor = R.reverse := by
    simp only [collectedOf, h1, h2, lineLasts_of_pairwise _ hrev]
  rw [LatestVersions_eq, h3]
  refine sort_eq_of_sorted S reverseLess R.reverse R reverseLess_contract
    (List.reverse_perm R).symm (hp.imp (fun h => lineLt_le h)) ?_
  intro a ha b hb hba hab
  exact eq_of_le_of_le hp (List.mem_reverse.mp ha) (List.mem_reverse.mp hb) hab hba

/-- C9: if the input list is empty, or every input version is strictly less than
the floor, `LatestVersions` returns the empty sequence; the function has no
error result. -/
theorem C9_empty_result (S : SortAlg) (releases : List Version) (floor : Version)
    (h : releases = [] ∨ ∀ v ∈ releases, v.LessThan floor = true) :
    LatestVersions S releases floor = [] := by
  have hall : ∀ v ∈ releases, v.LessThan floor = true := by
    rcases h with rfl | h
    · intro v hv; simp at hv
    · exact h
  rw [List.eq_nil_iff_forall_not_mem]
  intro e he
  obtain ⟨h1, h2, _⟩ := LatestVersions_max S releases floor e he
  rw [hall e h1] at h2
  exact absurd h2 (by decide)

/-- Scenarios B and D of C9: the input `[1.0.0, 1.0.1]` with floor `1.0.2`, all of
whose versions are below the floor, gives `[]`, and so does the empty input. -/
theorem C9_empty_result_witness :
    (∀ v ∈ [mkVersion 1 0 0, mkVersion 1 0 1], v.LessThan (mkVersion 1 0 2) = true) ∧
    LatestVersions insertionSortAlg [mkVersion 1 0 0, mkVersion 1 0 1] (mkVersion 1 0 2) = [] ∧
    LatestVersions insertionSortAlg [] (mkVersion 7 7 7) = [] :=
  ⟨by decide,
   C9_empty_result insertionSortAlg _ _ (Or.inr (by decide)),
   C9_empty_result insertionSortAlg _ _ (Or.inl rfl)⟩

/-- C10 as the code has it: the floor is inclusive. For every input that contains
a version `v` equal to the floor, the line of `v` is represented in the result;
when no higher version of its line is in the input, the result entry of that
line is equal to `v` as a semantic version (same major, minor, patch and
pre-release), and it is `v` itself when no other input version compares equal
to `v`; for every input, a version with the floor's major and minor and patch
one below the floor's never appears in the result. Scenario E: the input `[3.0.0]` with floor
`3.0.0` gives `[3.0.0]`. -/
theorem C10_floor_inclusive (S : SortAlg) (releases : List Version) (floor v : Version) :
    (v ∈ releases → v.Equal floor = true →
      (∃ e ∈ LatestVersions S releases floor, e.line = v.line) ∧
      ((∀ w ∈ releases, w.line = v.line → v.LessThan w = false) →
        ∃ e ∈ LatestVersions S releases floor, e.line = v.line ∧ e.Equal v = true ∧
          ((∀ w ∈ releases, w.Equal v = true → w = v) → e = v))) ∧
    (∀ u : Version, u.Major = floor.Major → u.Minor = floor.Minor →
      u.Patch = floor.Patch - 1 → u ∉ LatestVersions S releases floor) ∧
    LatestVersions S [mkVersion 3 0 0] (mkVersion 3 0 0) = [mkVersion 3 0 0] := by
  refine ⟨?_, ?_, ?_⟩
  · intro hv hfloor
    have hq : v.LessThan floor = false := by
      rw [equal_iff] at hfloor
      simp [Version.LessThan, hfloor]
    obtain ⟨e, he, hl, hve⟩ := LatestVersions_covers S releases floor v hv hq
    refine ⟨⟨e, he, hl⟩, ?_⟩
    intro hmax
    obtain ⟨h1, _, _⟩ := LatestVersions_max S releases floor e he
    have hev : e.le v := hmax e h1 hl
    have heq : e.Equal v = true := by
      rw [le_iff] at hve hev
      have := Compare_laws.antisymm e v
      rw [equal_iff]; omega
    exact ⟨e, he, hl, heq, fun huniq => huniq e h1 heq⟩
  · intro u h1 h2 h3 hu
    have hlt : u.LessThan floor = true := lessThan_of_patch_lt h1 h2 (by omega)
    have := (LatestVersions_max S releases floor u hu).2.1
    rw [hlt] at this
    exact absurd this (by decide)
  · rw [LatestVersions_eval S _ _ (by decide)]
    decide

/-- Scenario E of C10 through the theorem: in the input `[3.0.0]` the version
`3.0.0` is equal to the floor `3.0.0`, and it is the entry of the result. -/
theorem C10_floor_inclusive_witness :
    mkVersion 3 0 0 ∈ [mkVersion 3 0 0] ∧
    (mkVersion 3 0 0).Equal (mkVersion 3 0 0) = true ∧
    (∃ e ∈ LatestVersions insertionSortAlg [mkVersion 3 0 0] (mkVersion 3 0 0),
      e.line = (mkVersion 3 0 0).line) ∧
    LatestVersions insertionSortAlg [mkVersion 3 0 0] (mkVersion 3 0 0) = [mkVersion 3 0 0] :=
  ⟨by decide, by decide,
   ((C10_floor_inclusive insertionSortAlg [mkVersion 3 0 0] (mkVersion 3 0 0)
      (mkVersion 3 0 0)).1 (by decide) (by decide)).1,
   (C10_floor_inclusive insertionSortAlg [mkVersion 3 0 0] (mkVersion 3 0 0)
      (mkVersion 3 0 0)).2.2⟩

/-- C10 as stated fails on versions that differ in build metadata only: in the
input `[3.0.0+a, 3.0.0+b]` with floor `3.0.0` both versions are equal to the
floor and the input has no higher version of their line, yet with no sorting
procedure are both of them entries of the result, which has one entry for the
line `3.0`. -/
theorem C10_counterexample :
    ¬ ∃ S : SortAlg,
      ∀ v ∈ [Version.mk 3 0 0 "" "a", Version.mk 3 0 0 "" "b"],
        v.Equal (mkVersion 3 0 0) = true →
        (∀ w ∈ [Version.mk 3 0 0 "" "a", Version.mk 3 0 0 "" "b"],
          w.line = v.line → v.LessThan w = false) →
        v ∈ LatestVersions S [Version.mk 3 0 0 "" "a", Version.mk 3 0 0 "" "b"]
          (mkVersion 3 0 0) := by
  rintro ⟨S, h⟩
  have ha := h (Version.mk 3 0 0 "" "a") (by decide) (by decide) (by decide)
  have hb := h (Version.mk 3 0 0 "" "b") (by decide) (by decide) (by decide)
  rw [mem_LatestVersions] at ha hb
  have := eq_of_line_eq (collectedOf_pairwise S _ _) ha hb rfl
  revert this
  decide

/-! ## Invariant of the loop -/

theorem scan_snoc (f : Version) (l : List Version) (x : Version) (s : ScanState) :
    scan f (l ++ [x]) s = scanStep f (scan f l s) x := by
  simp [scan, List.foldl_append]

/-- After any part of a sorted slice has been scanned, `prev` is a version of
that part at or above the floor and the tracked line is the line of `prev`. -/
theorem scan_invariant (f : Version) (l : List Version) (hs : l.Pairwise Version.le) :
    ∀ p, (scan f l scanInit).prev = some p →
      p ∈ l ∧ p.LessThan f = false ∧
      (scan f l scanInit).major = p.Major ∧ (scan f l scanInit).minor = p.Minor := by
  induction l using List.reverseRecOn with
  | nil =>
    intro p hp
    simp [scan, scanInit] at hp
  | append_singleton l x ih =>
    have hsl : l.Pairwise Version.le := (List.pairwise_append.mp hs).1
    have hlx : ∀ a ∈ l, a.le x := fun a ha =>
      (List.pairwise_append.mp hs).2.2 a ha x (List.mem_singleton_self x)
    have ih := ih hsl
    rw [scan_snoc]
    intro p hp
    cases hq : x.LessThan f
    · cases hprev : (scan f l scanInit).prev with
      | none =>
        have e : (scanStep f (scan f l scanInit) x).prev = some x ∧
            (scanStep f (scan f l scanInit) x).major = x.Major ∧
            (scanStep f (scan f l scanInit) x).minor = x.Minor := by
          simp [scanStep, hq, hprev]
        rw [e.1] at hp
        have hpx : x = p := by simpa using hp
        subst hpx
        exact ⟨by simp, hq, e.2.1, e.2.2⟩
      | some p' =>
        obtain ⟨hm, _, hmaj, hmin⟩ := ih p' hprev
        obtain ⟨h1, h2, h3, _⟩ := scanStep_tracked (scan f l scanInit) hprev hmaj hmin
          (hlx p' hm) hq
        rw [h1] at hp
        have hpx : x = p := by simpa using hp
        subst hpx
        exact ⟨by simp, hq, h2, h3⟩
    · rw [scanStep_skip _ hq] at hp ⊢
      obtain ⟨hm, h2, h3, h4⟩ := ih p hp
      exact ⟨List.mem_append_left _ hm, h2, h3, h4⟩

/-! ## The claims, continued -/

/-- C13: every entry of the result of `LatestVersions` is an element of the input
list; the floor only takes part in the comparison `release.LessThan(*minVersion)`
and never seeds a tracked line, so the floor itself, or any version with its
major and minor, is in the result only if it is in the input. The input
`[1.3.0]` with floor `1.2.5` gives `[1.3.0]`. -/
theorem C13_entries_are_input_versions (S : SortAlg) (releases : List Version)
    (floor : Version) :
    (∀ e ∈ LatestVersions S releases floor, e ∈ releases) ∧
    (floor ∉ releases → floor ∉ LatestVersions S releases floor) ∧
    (∀ u : Version, u.Major = floor.Major → u.Minor = floor.Minor → u ∉ releases →
      u ∉ LatestVersions S releases floor) ∧
    LatestVersions S [mkVersion 1 3 0] (mkVersion 1 2 5) = [mkVersion 1 3 0] := by
  have h : ∀ e ∈ LatestVersions S releases floor, e ∈ releases :=
    fun e he => (LatestVersions_max S releases floor e he).1
  refine ⟨h, fun hn hf => hn (h _ hf), fun u _ _ hn hu => hn (h _ hu), ?_⟩
  rw [LatestVersions_eval S _ _ (by decide)]
  decide

/-- C15: transition detection is exact on the sorted input. At any point of the
scan of `LatestVersions` where a version `p` has been accepted before (`prev` is
`p`) and the current `release` is not less than the floor, the tracked
(major, minor) is the (major, minor) of `p`; the test of the code,
`major < release.Major || minor < release.Minor`, is true if and only if
`release` is on another version line than `p`, if and only if the major
increases or the major is equal and the minor increases; and the iteration
appends `p` exactly in that case. -/
theorem C15_transition_detection_exact (S : SortAlg) (releases : List Version)
    (floor : Version) (pre post : List Version) (release p : Version)
    (hsplit : S.sort versionsLess releases = pre ++ release :: post)
    (hq : release.LessThan floor = false)
    (hprev : (scan floor pre scanInit).prev = some p) :
    (scan floor pre scanInit).major = p.Major ∧
    (scan floor pre scanInit).minor = p.Minor ∧
    (transitionTest (scan floor pre scanInit) release = true ↔ p.line ≠ release.line) ∧
    (transitionTest (scan floor pre scanInit) release = true ↔
      (p.Major < release.Major ∨ (p.Major = release.Major ∧ p.Minor < release.Minor))) ∧
    (scanStep floor (scan floor pre scanInit) release).versionSlice =
      (scan floor pre scanInit).versionSlice ++ (if p.line = release.line then [] else [p]) := by
  have hs := sort_ascending S releases
  rw [hsplit] at hs
  have hpre : pre.Pairwise Version.le := (List.pairwise_append.mp hs).1
  obtain ⟨hm, _, hmaj, hmin⟩ := scan_invariant floor pre hpre p hprev
  have hle : p.le release :=
    (List.pairwise_append.mp hs).2.2 p hm release (List.mem_cons_self _ _)
  have hl := le_line hle
  obtain ⟨_, _, _, h4⟩ := scanStep_tracked (scan floor pre scanInit) hprev hmaj hmin hle hq
  refine ⟨hmaj, hmin, ?_, ?_, h4⟩
  · simp only [transitionTest, hmaj, hmin, Bool.or_eq_true, decide_eq_true_eq, Ne, line_eq_iff]
    omega
  · simp only [transitionTest, hmaj, hmin, Bool.or_eq_true, decide_eq_true_eq]
    omega

/-- An instance of C15 where the major rises while the minor falls: in the input
`[2.0.0, 1.5.0]` the scan has accepted `1.5.0` when it reaches `2.0.0`; the test
fires and `1.5.0` is appended. -/
theorem C15_transition_detection_exact_witness :
    insertionSortAlg.sort versionsLess [mkVersion 2 0 0, mkVersion 1 5 0]
      = [mkVersion 1 5 0] ++ mkVersion 2 0 0 :: [] ∧
    transitionTest (scan (mkVersion 1 0 0) [mkVersion 1 5 0] scanInit) (mkVersion 2 0 0) = true ∧
    (scanStep (mkVersion 1 0 0) (scan (mkVersion 1 0 0) [mkVersion 1 5 0] scanInit)
      (mkVersion 2 0 0)).versionSlice = [mkVersion 1 5 0] := by
  have h := C15_transition_detection_exact insertionSortAlg [mkVersion 2 0 0, mkVersion 1 5 0]
    (mkVersion 1 0 0) [mkVersion 1 5 0] [] (mkVersion 2 0 0) (mkVersion 1 5 0)
    (by decide) (by decide) (by decide)
  exact ⟨by decide, h.2.2.1.mpr (by decide), by decide⟩

/-! ## Versions that compare equal -/

theorem strCompare_eq_zero : ∀ a b : List Char, strCompare a b = 0 → a = b
  | [], [], _ => rfl
  | [], _ :: _, h => by simp [strCompare] at h
  | _ :: _, [], h => by simp [strCompare] at h
  | a :: as, b :: bs, h => by
    simp only [strCompare] at h
    have ih := strCompare_eq_zero as bs
    split_ifs at h with h1 h2
    all_goals first
      | (exfalso; omega)
      | (have hn : a.toNat = b.toNat := by omega
         have hab : a = b := by
           rw [← Char.ofNat_toNat a, ← Char.ofNat_toNat b, hn]
         rw [hab, ih h])

theorem recursivePreReleaseCompare_eq_zero : ∀ a b : List (List Char),
    recursivePreReleaseCompare a b = 0 → a = b
  | [], [], _ => rfl
  | [], _ :: _, h => by simp [recursivePreReleaseCompare] at h
  | _ :: _, [], h => by simp [recursivePreReleaseCompare] at h
  | a :: as, b :: bs, h => by
    have ih := recursivePreReleaseCompare_eq_zero as bs
    have hs := strCompare_eq_zero a b
    simp only [recursivePreReleaseCompare] at h
    rcases hx : atoi a with _ | x <;> rcases hy : atoi b with _ | y <;>
      simp only [hx, hy] at h
    · split_ifs at h with h1 h2
      all_goals first
        | (exfalso; omega)
        | rw [hs (by omega), ih h]
    · simp at h
    · simp at h
    · split_ifs at h with h1 h2 h3 h4
      all_goals first
        | (exfalso; omega)
        | rw [hs (by omega), ih h]

theorem splitDots_ne_nil : ∀ s : List Char, splitDots s ≠ []
  | [] => by simp [splitDots]
  | c :: cs => by
    simp only [splitDots]
    split_ifs
    · simp
    · split <;> simp

theorem splitDots_injective : ∀ s t : List Char, splitDots s = splitDots t → s = t
  | [], [], _ => rfl
  | [], d :: ds, h => by
    have hn := splitDots_ne_nil ds
    simp only [splitDots] at h
    split_ifs at h
    · simp at h
      exact absurd h.symm hn.symm
    · split at h
      · exact absurd ‹splitDots ds = []› hn
      · simp at h
  | c :: cs, [], h => by
    have hn := splitDots_ne_nil cs
    simp only [splitDots] at h
    split_ifs at h
    · simp at h
      exact absurd h hn
    · split at h
      · exact absurd ‹splitDots cs = []› hn
      · simp at h
  | c :: cs, d :: ds, h => by
    have ih := splitDots_injective cs ds
    have hc := splitDots_ne_nil cs
    have hd := splitDots_ne_nil ds
    simp only [splitDots] at h
    rcases hsc : splitDots cs with _ | ⟨f, fs⟩
    · exact absurd hsc hc
    rcases hsd : splitDots ds with _ | ⟨g, gs⟩
    · exact absurd hsd hd
    rw [hsc, hsd] at h ih
    by_cases h1 : c = '.' <;> by_cases h2 : d = '.' <;> simp [h1, h2] at h
    · rw [h1, h2, ih (by simp [h])]
    · obtain ⟨⟨e1, e2⟩, e3⟩ := h
      rw [e1, ih (by simp [e2, e3])]

theorem preReleaseCompare_eq_zero (a b : String) (h : preReleaseCompare a b = 0) : a = b := by
  simp only [preReleaseCompare] at h
  split_ifs at h
  all_goals first
    | (exfalso; omega)
    | exact String.ext (splitDots_injective _ _ (recursivePreReleaseCompare_eq_zero _ _ h))

/-- Versions that compare equal have the same major, minor, patch and
pre-release; they may differ in build metadata. -/
theorem Compare_eq_zero {a b : Version} (h : a.Compare b = 0) :
    a.Major = b.Major ∧ a.Minor = b.Minor ∧ a.Patch = b.Patch ∧
      a.PreRelease = b.PreRelease := by
  rw [Version.Compare, recursiveCompare_Slice] at h
  split_ifs at h with h0 h1 h2 h3 h4 h5 h6
  all_goals first
    | omega
    | exact ⟨by omega, by omega, by omega, preReleaseCompare_eq_zero _ _ h⟩

/-- The lines of the result are the lines of the input versions at or above the
floor. -/
theorem mem_map_line_LatestVersions (S : SortAlg) (l : List Version) (f : Version)
    (p : Int × Int) :
    p ∈ (LatestVersions S l f).map Version.line ↔
      ∃ v ∈ l, v.line = p ∧ v.LessThan f = false := by
  constructor
  · intro hp
    obtain ⟨e, he, rfl⟩ := List.mem_map.mp hp
    obtain ⟨h1, h2, _⟩ := LatestVersions_max S l f e he
    exact ⟨e, h1, rfl, h2⟩
  · rintro ⟨v, hv, rfl, hq⟩
    obtain ⟨e, he, hl, _⟩ := LatestVersions_covers S l f v hv hq
    exact List.mem_map.mpr ⟨e, he, hl⟩

/-- Strict descending order of (major, minor) pairs. -/
theorem map_line_pairwise (S : SortAlg) (l : List Version) (f : Version) :
    ((LatestVersions S l f).map Version.line).Pairwise
      (fun p q : Int × Int => q.1 < p.1 ∨ (q.1 = p.1 ∧ q.2 < p.2)) := by
  rw [List.pairwise_map]
  exact (LatestVersions_pairwise S l f).imp (fun h => h)

/-- Two lists with the same lines position by position are related position by
position as soon as members of the same line are related. -/
theorem forall₂_of_map_line_eq {Q : Version → Version → Prop} :
    ∀ (l₁ l₂ : List Version), l₁.map Version.line = l₂.map Version.line →
      (∀ a ∈ l₁, ∀ b ∈ l₂, a.line = b.line → Q a b) → List.Forall₂ Q l₁ l₂
  | [], [], _, _ => List.Forall₂.nil
  | [], _ :: _, h, _ => by simp at h
  | _ :: _, [], h, _ => by simp at h
  | a :: l₁, b :: l₂, h, hq => by
    simp only [List.map_cons, List.cons.injEq] at h
    refine List.Forall₂.cons (hq a (List.mem_cons_self _ _) b (List.mem_cons_self _ _) h.1) ?_
    exact forall₂_of_map_line_eq l₁ l₂ h.2
      (fun x hx y hy => hq x (List.mem_cons_of_mem _ hx) y (List.mem_cons_of_mem _ hy))

/-- The results for two arrangements of the same versions, sorted by any two
sorting procedures, have the same lines position by position. -/
theorem map_line_eq_of_perm (S T : SortAlg) {l₁ l₂ : List Version} (f : Version)
    (h : l₁.Perm l₂) :
    (LatestVersions S l₁ f).map Version.line = (LatestVersions T l₂ f).map Version.line := by
  have hnd : ∀ (U : SortAlg) (l : List Version),
      ((LatestVersions U l f).map Version.line).Nodup := by
    intro U l
    rw [List.Nodup, List.pairwise_map]
    exact (LatestVersions_pairwise U l f).imp (fun h => (lineLt_line_ne h).symm)
  refine List.Perm.eq_of_sorted ?_ (map_line_pairwise S l₁ f) (map_line_pairwise T l₂ f) ?_
  · intro p q _ _ h1 h2
    exfalso; omega
  · refine (List.perm_ext_iff_of_nodup (hnd S l₁) (hnd T l₂)).mpr (fun p => ?_)
    rw [mem_map_line_LatestVersions, mem_map_line_LatestVersions]
    constructor
    · rintro ⟨v, hv, h1, h2⟩
      exact ⟨v, h.mem_iff.mp hv, h1, h2⟩
    · rintro ⟨v, hv, h1, h2⟩
      exact ⟨v, h.mem_iff.mpr hv, h1, h2⟩

/-- C17: `LatestVersions` does not depend on the order of its input: for every
floor and every two lists of versions that are permutations of each other, the
two results (also when computed with two different sorting procedures) are equal
as sequences under semantic-version equality: at every position the two entries
compare equal and have the same major, minor, patch and pre-release. -/
theorem C17_order_independent (S T : SortAlg) (l₁ l₂ : List Version) (floor : Version)
    (h : l₁.Perm l₂) :
    List.Forall₂
      (fun a b : Version => a.Equal b = true ∧ a.Major = b.Major ∧ a.Minor = b.Minor ∧
        a.Patch = b.Patch ∧ a.PreRelease = b.PreRelease)
      (LatestVersions S l₁ floor) (LatestVersions T l₂ floor) := by
  refine forall₂_of_map_line_eq _ _ (map_line_eq_of_perm S T floor h) ?_
  intro a ha b hb hl
  obtain ⟨a1, a2, a3⟩ := LatestVersions_max S l₁ floor a ha
  obtain ⟨b1, b2, b3⟩ := LatestVersions_max T l₂ floor b hb
  have hab : a.le b := b3 a (h.mem_iff.mp a1) hl a2
  have hba : b.le a := a3 b (h.mem_iff.mpr b1) hl.symm b2
  rw [le_iff] at hab hba
  have e := Compare_laws.antisymm a b
  have hz : a.Compare b = 0 := by omega
  exact ⟨(equal_iff a b).mpr hz, Compare_eq_zero hz⟩

/-- An instance of C17: the inputs `[1.0.0, 1.0.1, 2.0.0]` and `[2.0.0, 1.0.1, 1.0.0]`
are permutations of each other and give results that agree at every position. -/
theorem C17_order_independent_witness :
    List.Forall₂
      (fun a b : Version => a.Equal b = true ∧ a.Major = b.Major ∧ a.Minor = b.Minor ∧
        a.Patch = b.Patch ∧ a.PreRelease = b.PreRelease)
      (LatestVersions insertionSortAlg [mkVersion 1 0 0, mkVersion 1 0 1, mkVersion 2 0 0]
        (mkVersion 1 0 0))
      (LatestVersions insertionSortAlg [mkVersion 2 0 0, mkVersion 1 0 1, mkVersion 1 0 0]
        (mkVersion 1 0 0)) :=
  C17_order_independent insertionSortAlg insertionSortAlg _ _ (mkVersion 1 0 0)
    (((List.Perm.swap _ _ _).cons _).trans
      (((List.Perm.swap _ _ _).trans ((List.Perm.swap _ _ _).cons _))))

/-! ## The fold of the reference definition -/

theorem upsertWith_append (pick : Version → Version → Version) (v : Version) :
    ∀ (m₀ m₁ : List ((Int × Int) × Version)), (∀ e ∈ m₀, e.1 ≠ v.line) →
      upsertWith pick (m₀ ++ m₁) v = m₀ ++ upsertWith pick m₁ v
  | [], _, _ => rfl
  | (k, old) :: m₀, m₁, h => by
    have hk : k ≠ v.line := h (k, old) (List.mem_cons_self _ _)
    have ih := upsertWith_append pick v m₀ m₁ (fun e he => h e (List.mem_cons_of_mem _ he))
    show upsertWith pick ((k, old) :: (m₀ ++ m₁)) v = (k, old) :: (m₀ ++ upsertWith pick m₁ v)
    simp only [upsertWith, hk, if_false, ih]

theorem keyLt_of_le {k : Int × Int} {p b : Version} (h : keyLt k p) (hle : p.le b) :
    keyLt k b := by
  have := le_line hle
  unfold keyLt at *; omega

theorem keyLt_ne {k : Int × Int} {b : Version} (h : keyLt k b) : k ≠ b.line := by
  intro e
  subst e
  unfold keyLt at h
  simp only [Version.line] at h
  omega

/-- The fold of the reference definition over a sorted slice, started after a
first version: it collects, up to the relation `Q` that `pick` guarantees, the
last version of every line. -/
theorem foldl_upsertWith_tracked (pick : Version → Version → Version)
    (Q : Version → Version → Prop) (hrefl : ∀ a, Q a a)
    (hpick : ∀ p' p b, Q p' p → p.le b → p.line = b.line → Q (pick p' b) b) :
    ∀ (t : List Version) (p p' : Version) (m₀ : List ((Int × Int) × Version)),
      Q p' p → (∀ e ∈ m₀, keyLt e.1 p) → (p :: t).Pairwise Version.le →
      ∃ L, (t.foldl (upsertWith pick) (m₀ ++ [(p.line, p')])).map Prod.snd
          = m₀.map Prod.snd ++ L ∧ List.Forall₂ Q L (lineLasts (p :: t))
  | [], p, p', m₀, hq, _, _ => by
    refine ⟨[p'], by simp, ?_⟩
    simp only [lineLasts]
    exact List.Forall₂.cons hq List.Forall₂.nil
  | b :: t, p, p', m₀, hq, hm, hs => by
    have hpb : p.le b := (List.pairwise_cons.mp hs).1 b (List.mem_cons_self _ _)
    have hs2 := (List.pairwise_cons.mp hs).2
    have hmb : ∀ e ∈ m₀, keyLt e.1 b := fun e he => keyLt_of_le (hm e he) hpb
    have happ := upsertWith_append pick b m₀ [(p.line, p')] (fun e he => keyLt_ne (hmb e he))
    simp only [List.foldl_cons, happ]
    by_cases hsame : p.line = b.line
    · have e1 : upsertWith pick [(p.line, p')] b = [(b.line, pick p' b)] := by
        simp [upsertWith, hsame]
      rw [e1]
      obtain ⟨L, hL, hF⟩ := foldl_upsertWith_tracked pick Q hrefl hpick t b (pick p' b) m₀
        (hpick p' p b hq hpb hsame) hmb hs2
      refine ⟨L, hL, ?_⟩
      simpa [lineLasts, hsame] using hF
    · have e1 : upsertWith pick [(p.line, p')] b = [(p.line, p'), (b.line, b)] := by
        simp [upsertWith, hsame]
      have hlt : lineLt p b := (le_line_cases hpb).resolve_left hsame
      have hm' : ∀ e ∈ m₀ ++ [(p.line, p')], keyLt e.1 b := by
        intro e he
        rcases List.mem_append.mp he with he | he
        · exact hmb e he
        · have : e = (p.line, p') := by simpa using he
          subst this
          exact hlt
      obtain ⟨L, hL, hF⟩ := foldl_upsertWith_tracked pick Q hrefl hpick t b b
        (m₀ ++ [(p.line, p')]) (hrefl b) hm' hs2
      refine ⟨p' :: L, ?_, ?_⟩
      · rw [e1]
        have e2 : m₀ ++ [(p.line, p'), (b.line, b)] = (m₀ ++ [(p.line, p')]) ++ [(b.line, b)] := by
          simp
        rw [e2, hL]
        simp
      · simp only [lineLasts, hsame, if_false]
        exact List.Forall₂.cons hq hF

theorem foldl_upsertWith_sorted (pick : Version → Version → Version)
    (Q : Version → Version → Prop) (hrefl : ∀ a, Q a a)
    (hpick : ∀ p' p b, Q p' p → p.le b → p.line = b.line → Q (pick p' b) b)
    (q : List Version) (hs : q.Pairwise Version.le) :
    List.Forall₂ Q ((q.foldl (upsertWith pick) []).map Prod.snd) (lineLasts q) := by
  cases q with
  | nil => exact List.Forall₂.nil
  | cons p t =>
    obtain ⟨L, hL, hF⟩ := foldl_upsertWith_tracked pick Q hrefl hpick t p p [] (hrefl p)
      (fun e he => by simp at he) hs
    have e : (p :: t).foldl (upsertWith pick) [] = t.foldl (upsertWith pick) ([] ++ [(p.line, p)]) :=
      rfl
    rw [e, hL]
    simpa using hF

/-- A slice with strictly ascending lines is sorted into its reverse by the
final sort of `LatestVersions`. -/
theorem sort_reverseLess_of_ascending (S : SortAlg) (L : List Version)
    (h : L.Pairwise lineLt) : S.sort reverseLess L = L.reverse := by
  have hrev : L.reverse.Pairwise (fun a b => lineLt b a) := List.pairwise_reverse.mpr h
  refine sort_eq_of_sorted S reverseLess L L.reverse reverseLess_contract
    (List.reverse_perm L) (hrev.imp (fun h => lineLt_le h)) ?_
  intro a ha b hb hba hab
  exact eq_of_le_of_le hrev (List.mem_reverse.mpr ha) (List.mem_reverse.mpr hb) hab hba

theorem map_line_eq_of_forall₂ {Q : Version → Version → Prop}
    (hQ : ∀ a b, Q a b → a.line = b.line) {L M : List Version} (h : List.Forall₂ Q L M) :
    L.map Version.line = M.map Version.line := by
  induction h with
  | nil => rfl
  | cons hab _ ih => simp [hQ _ _ hab, ih]

theorem pairwise_lineLt_of_forall₂ {Q : Version → Version → Prop}
    (hQ : ∀ a b, Q a b → a.line = b.line) {L M : List Version} (h : List.Forall₂ Q L M)
    (hM : M.Pairwise lineLt) : L.Pairwise lineLt := by
  have e := map_line_eq_of_forall₂ hQ h
  have hM' : (M.map Version.line).Pairwise
      (fun p q : Int × Int => p.1 < q.1 ∨ (p.1 = q.1 ∧ p.2 < q.2)) := by
    rw [List.pairwise_map]
    exact hM.imp (fun h => h)
  rw [← e, List.pairwise_map] at hM'
  exact hM'.imp (fun h => h)

theorem maxVersion_of_le {p b : Version} (h : p.le b) : maxVersion p b = b := by
  have e : b.LessThan p = false := h
  simp [maxVersion, e]

theorem maxVersionStrict_equal {p' p b : Version} (h1 : p'.Compare p = 0) (h2 : p.le b) :
    (maxVersionStrict p' b).Compare b = 0 := by
  have e1 := Compare_laws.antisymm b b
  have e2 := Compare_laws.antisymm p' b
  have e3 := Compare_laws.antisymm p' p
  have t := Compare_laws.trans p' p b
  rw [le_iff] at h2
  unfold maxVersionStrict
  by_cases hlt : p'.LessThan b = true
  · rw [if_pos hlt]; omega
  · rw [if_neg hlt]
    rw [lessThan_iff] at hlt
    omega

/-- The result of `LatestVersions` as the final sort of `lineLasts`, with the
filter written out. -/
theorem LatestVersions_eq_filter (S : SortAlg) (l : List Version) (f : Version) :
    LatestVersions S l f = S.sort reverseLess
      (lineLasts ((S.sort versionsLess l).filter (fun v => !v.LessThan f))) :=
  LatestVersions_eq S l f

/-- C16: the single-pass tracking algorithm of `LatestVersions` equals the
reference definition of the design note. For every input and floor its result is
the list `referenceLatestVersions` obtained by folding the sorted versions at or
above the floor into a mapping from (major, minor) to the maximum version of
that line, projecting the values of the mapping and sorting them descending.
The maximum of two versions that compare equal (they differ in build metadata
only) is here the later one; when the fold keeps the earlier one instead
(`maxVersionStrict`), the two results still have equal entries, as semantic
versions, at every position. -/
theorem C16_equals_reference_definition (S : SortAlg) (releases : List Version)
    (floor : Version) :
    LatestVersions S releases floor = referenceLatestVersions S releases floor ∧
    List.Forall₂ (fun a b : Version => a.Equal b = true)
      (referenceWith maxVersionStrict S releases floor) (LatestVersions S releases floor) := by
  have hs : ((S.sort versionsLess releases).filter (fun v => !v.LessThan floor)).Pairwise
      Version.le := (sort_ascending S releases).sublist (List.filter_sublist _)
  constructor
  · have h := foldl_upsertWith_sorted maxVersion (fun a b => a = b) (fun _ => rfl)
      (fun p' p b hq hle _ => by rw [hq]; exact maxVersion_of_le hle) _ hs
    rw [List.forall₂_eq_eq_eq] at h
    rw [LatestVersions_eq_filter, referenceLatestVersions, referenceWith, h]
  · have hrefl : ∀ a : Version, a.Compare a = 0 := fun a => by
      have := Compare_laws.antisymm a a
      omega
    have h := foldl_upsertWith_sorted maxVersionStrict (fun a b => a.Compare b = 0) hrefl
      (fun p' p b hq hle _ => maxVersionStrict_equal hq hle) _ hs
    have hline : ∀ a b : Version, a.Compare b = 0 → a.line = b.line := fun a b hab => by
      have := Compare_eq_zero hab
      rw [line_eq_iff]
      exact ⟨this.1, this.2.1⟩
    have hM := lineLasts_pairwise _ hs
    have hL := pairwise_lineLt_of_forall₂ hline h hM
    rw [LatestVersions_eq_filter, referenceWith, sort_reverseLess_of_ascending S _ hL,
      sort_reverseLess_of_ascending S _ hM, List.forall₂_reverse_iff]
    exact h.imp (fun {a b} hab => (equal_iff a b).mpr hab)

/-! ## The tags of the fetched releases -/

theorem parseReleases_singleton (newVersion : String → Option Version) (tagName : String)
    (v : Version) :
    parseReleases newVersion [tagName] = Except.ok [v] ↔
      ∃ s, normalizeTag tagName = Except.ok s ∧ newVersion s = some v := by
  simp only [parseReleases, semverNew]
  cases hn : normalizeTag tagName with
  | error e => simp
  | ok s =>
    cases hp : newVersion s with
    | none => simp [hp]
    | some w => simp [hp]

/-- A tag that is empty or does not parse after the removal of a leading `v`
makes the loop over the tags panic, wherever it stands in the list. -/
theorem parseReleases_panics (newVersion : String → Option Version) :
    ∀ (tags : List String) (t : String), t ∈ tags →
      (∀ s, normalizeTag t = Except.ok s → newVersion s = none) →
      ∃ e, parseReleases newVersion tags = Except.error e
  | [], t, ht, _ => by simp at ht
  | tagName :: rest, t, ht, hbad => by
    cases hn : normalizeTag tagName with
    | error e => exact ⟨e, by simp [parseReleases, hn]⟩
    | ok s =>
      cases hp : newVersion s with
      | none => exact ⟨Panic.parseError, by simp [parseReleases, semverNew, hn, hp]⟩
      | some w =>
        rcases List.mem_cons.mp ht with rfl | hr
        · rw [hbad s hn] at hp
          exact absurd hp (by simp)
        · obtain ⟨e, he⟩ := parseReleases_panics newVersion rest t hr hbad
          exact ⟨e, by simp [parseReleases, semverNew, hn, hp, he]⟩

/-- When every tag is non-empty and parses, the candidates are the parsed
versions of the tags, in the order of the tags. -/
theorem parseReleases_ok (newVersion : String → Option Version) :
    ∀ (tags : List String) (vs : List Version),
      List.Forall₂ (fun t v => ∃ s, normalizeTag t = Except.ok s ∧ newVersion s = some v)
        tags vs → parseReleases newVersion tags = Except.ok vs
  | [], [], _ => rfl
  | t :: tags, v :: vs, h => by
    rcases List.forall₂_cons.mp h with ⟨⟨s, hs, hv⟩, hrest⟩
    simp [parseReleases, semverNew, hs, hv, parseReleases_ok newVersion tags vs hrest]

/-- C11, the behaviour of the code: an unparseable or empty release tag is not
dropped. Whatever the parser, a list of tags that holds a tag which is empty or
fails to parse makes the loop over the tags panic, so no candidate set reaches
`LatestVersions`; with the tags `v1.0.0, latest, v2.0.0` the call
`semver.New("latest")` panics, with the tags `v1.0.0, ""` the index expression
`versionString[0]` does, and the panic ends the run before the repositories that
follow are processed. -/
theorem C11_unparseable_tag_panics :
    (∀ (newVersion : String → Option Version) (tags : List String) (t : String), t ∈ tags →
      (∀ s, normalizeTag t = Except.ok s → newVersion s = none) →
      ∃ e, parseReleases newVersion tags = Except.error e) ∧
    parseReleases NewVersion ["v1.0.0", "latest", "v2.0.0"] = Except.error Panic.parseError ∧
    parseReleases NewVersion ["v1.0.0", ""] = Except.error Panic.indexOutOfRange ∧
    parseReleases NewVersion ["v1.0.0", "v2.0.0"] = Except.ok [mkVersion 1 0 0, mkVersion 2 0 0] ∧
    mainRun insertionSortAlg NewVersion
        (fun owner _ =>
          if owner = "a" then Except.ok ["v1.0.0", "latest"] else Except.ok ["v3.0.0"])
        "a/b,1.0.0\nc/d,1.0.0\n"
      = RunResult.mk [Event.listReleases "a" "b"] (some Panic.parseError) := by
  refine ⟨fun nv tags t ht hbad => parseReleases_panics nv tags t ht hbad, ?_, ?_, ?_, ?_⟩
  · decide
  · decide
  · decide
  · decide

/-- C14 as the code has it: tag normalization strips a single leading `v`, and
no other marker. For every tag whose first character is `v` the string handed
to the semantic-version parser is the tag without its first character; for every
tag with another first character, a digit in particular, it is the tag
unchanged. -/
theorem C14_strips_leading_v_only (tagName : String) :
    (∀ cs, tagName.data = 'v' :: cs → normalizeTag tagName = Except.ok (String.mk cs)) ∧
    (∀ c cs, tagName.data = c :: cs → c ≠ 'v' → normalizeTag tagName = Except.ok tagName) ∧
    (∀ c cs, tagName.data = c :: cs → c.isDigit = true →
      normalizeTag tagName = Except.ok tagName) ∧
    (∀ (newVersion : String → Option Version) (v : Version),
      parseReleases newVersion [tagName] = Except.ok [v] ↔
        ∃ s, normalizeTag tagName = Except.ok s ∧ newVersion s = some v) ∧
    normalizeTag "v1.8.11" = Except.ok "1.8.11" ∧
    normalizeTag "1.8.11" = Except.ok "1.8.11" := by
  refine ⟨?_, ?_, ?_, fun nv v => parseReleases_singleton nv tagName v, ?_, ?_⟩
  · intro cs h
    simp [normalizeTag, h]
  · intro c cs h hc
    simp [normalizeTag, h, hc]
  · intro c cs h hd
    have hc : c ≠ 'v' := by
      rintro rfl
      revert hd
      decide
    simp [normalizeTag, h, hc]
  · decide
  · decide

/-- C14 as stated fails: the first character of the tag `r1.0.0` is not a digit,
yet the string handed to the parser is `r1.0.0`, not `1.0.0`. -/
theorem C14_counterexample :
    ('r').isDigit = false ∧
    normalizeTag "r1.0.0" = Except.ok "r1.0.0" ∧
    normalizeTag "r1.0.0" ≠ Except.ok "1.0.0" := by
  refine ⟨?_, ?_, ?_⟩
  · decide
  · decide
  · decide

/-! ## The loader -/

theorem dropFinalEmpty_cons_cons (piece next : List Char) (rest : List (List Char)) :
    dropFinalEmpty (piece :: next :: rest) = piece :: dropFinalEmpty (next :: rest) := rfl

end GoMain
